import Mathlib

/-!
Verification development for the seredies RESP (Redis Serialization
Protocol) codec.  The definitions below are a shallow embedding of the
parsing layer (`src/de/parse.rs`), the serde-style deserializer
(`src/de.rs`, `src/de/result.rs`) and the serializer (`src/ser.rs`,
`src/ser/output.rs`).  Byte strings are modelled as `List Nat`, the
64-bit signed machine integers as `Int` with explicit range checks, and
`usize` arithmetic with explicit saturation at `2 ^ 64 - 1`.
-/

set_option maxHeartbeats 1000000

instance {ε α : Type} [DecidableEq ε] [DecidableEq α] : DecidableEq (Except ε α)
  | .error a, .error b =>
    if h : a = b then .isTrue (by rw [h]) else .isFalse (by simp [h])
  | .error _, .ok _ => .isFalse (by simp)
  | .ok _, .error _ => .isFalse (by simp)
  | .ok a, .ok b =>
    if h : a = b then .isTrue (by rw [h]) else .isFalse (by simp [h])

/-- Byte strings are lists of byte values. -/
abbrev Bytes := List Nat

/-- `parse::Error` from `src/de/parse.rs`. -/
inductive ParseError where
  | unexpectedEof (n : Nat)
  | malformedNewline
  | badTag (b : Nat)
  | number
deriving DecidableEq, Repr

/-- `TaggedHeader` from `src/de/parse.rs`. -/
inductive TaggedHeader where
  | simpleString (payload : Bytes)
  | error (payload : Bytes)
  | integer (value : Int)
  | bulkString (len : Int)
  | array (len : Int)
  | null
deriving DecidableEq, Repr

/-- Minimum value of a 64-bit signed integer (`i64::MIN`). -/
def i64Min : Int := -(2 ^ 63)

/-- Maximum value of a 64-bit signed integer (`i64::MAX`). -/
def i64Max : Int := 2 ^ 63 - 1

/-- Maximum value of `usize` on a 64-bit target. -/
def usizeMax : Nat := 2 ^ 64 - 1

/-- `usize::saturating_add`. -/
def satAdd (a b : Nat) : Nat := min (a + b) usizeMax

/-- `usize::saturating_mul`. -/
def satMul (a b : Nat) : Nat := min (a * b) usizeMax

/-- `i64::checked_mul`. -/
def checkedMul (a b : Int) : Option Int :=
  if i64Min ≤ a * b ∧ a * b ≤ i64Max then some (a * b) else none

/-- `i64::checked_add`. -/
def checkedAdd (a b : Int) : Option Int :=
  if i64Min ≤ a + b ∧ a + b ≤ i64Max then some (a + b) else none

/-- `memchr::memchr2`: index of the first occurrence of either byte. -/
def memchr2 (a b : Nat) : Bytes → Option Nat
  | [] => none
  | c :: rest =>
    if c = a ∨ c = b then some 0
    else (memchr2 a b rest).map (· + 1)

/-- `try_split_at` from `src/de/parse.rs`: slicing is bounds-checked. -/
def trySplitAt (input : Bytes) (idx : Nat) : Option (Bytes × Bytes) :=
  if idx ≤ input.length then some (input.take idx, input.drop idx) else none

/-- `read_endline` from `src/de/parse.rs`: consume a single `\r\n`.
The source matches `[\r, \n, ..]`, `[\r]`, `[]` and a catch-all; the
if-conditions below express the same four cases. -/
def readEndline : Bytes → Except ParseError (Unit × Bytes)
  | [] => .error (.unexpectedEof 2)
  | [b] => if b = 13 then .error (.unexpectedEof 1) else .error .malformedNewline
  | a :: b :: rest =>
    if a = 13 ∧ b = 10 then .ok ((), rest) else .error .malformedNewline

/-- `ascii_to_digit` from `src/de/parse.rs`. -/
def asciiToDigit (b : Nat) : Option Int :=
  if 48 ≤ b ∧ b ≤ 57 then some ((b : Int) - 48) else none

/-- One step of the `try_fold` accumulation inside `parse_number`:
digit lookup, sign application, `checked_mul` by 10, `checked_add`
(the `?` early returns are explicit matches). -/
def numFoldStep (positive : Bool) (accum : Int) (b : Nat) : Option Int :=
  match asciiToDigit b with
  | none => none
  | some digit =>
    let digit := if positive then digit else -digit
    match checkedMul accum 10 with
    | none => none
    | some accum => checkedAdd accum digit

/-- `parse_number` from `src/de/parse.rs`: optional sign, then a
digit-by-digit overflow-checked accumulation. -/
def parseNumber (payload : Bytes) : Except ParseError Int :=
  match payload with
  | [] => .error .number
  | b :: tail =>
    let p : Bytes × Bool :=
      if b = 45 then (tail, false)
      else if b = 43 then (tail, true)
      else (payload, true)
    match p.1.foldlM (numFoldStep p.2) 0 with
    | some v => .ok v
    | none => .error .number

/-- The byte string `"+OK\r\n"`. -/
def okFast : Bytes := [43, 79, 75, 13, 10]

/-- The byte string `"$-1\r\n"`. -/
def nullFast : Bytes := [36, 45, 49, 13, 10]

/-- The payload bytes `"OK"`. -/
def okBytes : Bytes := [79, 75]

/-- The tag dispatch at the end of `read_header` (the Rust `match` on
the tag byte, written as an if-chain over the five recognized tags). -/
def headerDispatch (tag : Nat) (payload : Bytes) : Except ParseError TaggedHeader :=
  if tag = 43 then .ok (.simpleString payload)
  else if tag = 45 then .ok (.error payload)
  else if tag = 58 then (parseNumber payload).map .integer
  else if tag = 36 then (parseNumber payload).map fun len =>
    if len = -1 then .null else .bulkString len
  else if tag = 42 then (parseNumber payload).map fun len =>
    if len = -1 then .null else .array len
  else .error (.badTag tag)

/-- The tail of `read_header` after the payload has been located:
`read_endline`, then the tag dispatch. -/
def readHeaderTail (tag : Nat) (payload rest : Bytes) :
    Except ParseError (TaggedHeader × Bytes) :=
  match readEndline rest with
  | .error e => .error e
  | .ok (_, rest) => (headerDispatch tag payload).map fun h => (h, rest)

/-- The general (non-fast-path) body of `read_header`. -/
def readHeaderGeneral (input : Bytes) : Except ParseError (TaggedHeader × Bytes) :=
  match input with
  | [] => .error (.unexpectedEof 3)
  | tag :: rest =>
    match memchr2 13 10 rest with
    | none => .error (.unexpectedEof 2)
    | some idx => readHeaderTail tag (rest.take idx) (rest.drop idx)

/-- `read_header` from `src/de/parse.rs`, including the fast path for
`"+OK\r\n"` and `"$-1\r\n"`. -/
def readHeader (input : Bytes) : Except ParseError (TaggedHeader × Bytes) :=
  match trySplitAt input 5 with
  | some (head, tail) =>
    if head = okFast then .ok (.simpleString okBytes, tail)
    else if head = nullFast then .ok (.null, tail)
    else readHeaderGeneral input
  | none => readHeaderGeneral input

/-- `read_exact` from `src/de/parse.rs`: slice exactly `length` bytes,
then require `\r\n`. -/
def readExact (length : Nat) (input : Bytes) : Except ParseError (Bytes × Bytes) :=
  match trySplitAt input length with
  | none => .error (.unexpectedEof (satAdd (length - input.length) 2))
  | some (payload, rest) =>
    match readEndline rest with
    | .error e => .error e
    | .ok (_, rest) => .ok (payload, rest)

/-! ### Decimal digit strings

`intToDecimal` models the byte string produced by Rust's `Display`
implementation for `i64` (used by `write!(output, "{prefix}{value}\r\n")`
in `serialize_header`).  It is defined with explicit fuel so that it is
structurally recursive and evaluates in the kernel. -/

/-- Decimal digit bytes of `n`, most significant first (fueled helper). -/
def natDigitsAux : Nat → Nat → Bytes
  | 0, _ => []
  | fuel + 1, n =>
    if n < 10 then [48 + n] else natDigitsAux fuel (n / 10) ++ [48 + n % 10]

/-- Decimal digit bytes of a natural number, most significant first. -/
def natDigits (n : Nat) : Bytes := natDigitsAux (n + 1) n

/-- Decimal byte string of an integer, with a leading `-` when negative,
as produced by Rust's `Display` for integers. -/
def intToDecimal (v : Int) : Bytes :=
  if v < 0 then 45 :: natDigits (-v).toNat else natDigits v.toNat

/-! Completeness facts about the accumulation: a successful fold is in
`i64` range and computes exactly the decimal value; overflow or any
non-digit byte yields `None`, which `parse_number` reports as `Number`. -/

/-- Total (unchecked) decimal accumulation, used to characterise what a
successful checked fold must have computed. -/
def digitsValI : Bytes → Int → Int
  | [], acc => acc
  | b :: tl, acc => digitsValI tl (acc * 10 + ((b : Int) - 48))

/-- The payload after stripping one optional leading sign, exactly as
`parse_number` does it. -/
def signStripped (payload : Bytes) : Bytes :=
  match payload with
  | [] => []
  | b :: tl => if b = 45 then tl else if b = 43 then tl else payload

/-! ### Serializer (`src/ser.rs`, `src/ser/output.rs`)

The output sink is modelled as the byte string produced; `reserve` is a
capacity hint with no observable effect and is omitted.  `serialize`
carries the `UnitBehavior` mode (`NullUnit` or `ResultOkUnit`). -/

/-- `ser::Error` from `src/ser.rs`. -/
inductive SerError where
  | unsupportedType (t : String)
  | numberOutOfRange
  | unknownSeqLength
  | badSeqLength
  | badSimpleString
  | io
  | custom (msg : String)
  | invalidErrorPayload
  | utf8Encode
deriving DecidableEq, Repr

/-- The `UnitBehavior` strategy: `NullUnit` or `ResultOkUnit`. -/
inductive UnitMode where
  | nullUnit
  | resultOkUnit
deriving DecidableEq, Repr

/-- `UnitBehavior::unit_payload`. -/
def UnitMode.payload : UnitMode → Bytes
  | .nullUnit => nullFast
  | .resultOkUnit => okFast

/-- `serialize_header`: `value.try_into::<i64>()` then
`write!(output, "{tag}{value}\r\n")`. -/
def serializeHeader (tag : Nat) (value : Int) : Except SerError Bytes :=
  if i64Min ≤ value ∧ value ≤ i64Max then
    .ok (tag :: intToDecimal value ++ [13, 10])
  else .error .numberOutOfRange

/-- `serialize_number`: an Integer header. -/
def serializeNumber (value : Int) : Except SerError Bytes :=
  serializeHeader 58 value

/-- `serialize_array_header`. -/
def serializeArrayHeader (len : Nat) : Except SerError Bytes :=
  serializeHeader 42 (len : Int)

/-- `serialize_bulk_string`: length header, payload, `\r\n`. -/
def serializeBulkString (s : Bytes) : Except SerError Bytes :=
  if (s.length : Int) ≤ i64Max then
    .ok (36 :: intToDecimal s.length ++ [13, 10] ++ s ++ [13, 10])
  else .error .numberOutOfRange

/-- `Writable::safe`: no `\r` or `\n` byte. -/
def safeBytes (s : Bytes) : Bool := (memchr2 13 10 s).isNone

/-- `serialize_error`: `-`, payload, `\r\n`, guarded by `safe`. -/
def serializeError (s : Bytes) : Except SerError Bytes :=
  if safeBytes s then .ok (45 :: s ++ [13, 10]) else .error .badSimpleString

/-- The typed values the claims quantify over: booleans, integers,
text/bytes (both binary-safe byte strings), unit, options, fixed-length
sequences, and the Ok/Err `Result` union whose `Err` payload is a byte
string. -/
inductive Value where
  | bool (b : Bool)
  | int (n : Int)
  | bytes (s : Bytes)
  | unit
  | none
  | some (v : Value)
  | tuple (vs : List Value)
  | ok (v : Value)
  | err (msg : Bytes)

mutual

/-- The `BaseSerializer` dispatch: booleans as Integer 0/1, integers as
Integer headers, byte strings as Bulk Strings, unit via the active
`UnitBehavior`, `None` as the null sentinel, `Some` transparently in
the same mode, sequences as a counted Array header followed by their
elements, `Result::Ok` re-entering in `ResultOkUnit` mode, and
`Result::Err` through `serialize_error`. -/
def serialize : UnitMode → Value → Except SerError Bytes
  | _, .bool b => serializeNumber (if b then 1 else 0)
  | _, .int n => serializeNumber n
  | _, .bytes s => serializeBulkString s
  | m, .unit => .ok m.payload
  | _, .none => .ok nullFast
  | m, .some w => serialize m w
  | _, .tuple vs =>
    match serializeArrayHeader vs.length with
    | .error e => .error e
    | .ok hd =>
      match serializeValues vs with
      | .error e => .error e
      | .ok body => .ok (hd ++ body)
  | _, .ok w => serialize .resultOkUnit w
  | _, .err msg => serializeError msg

/-- The `SerializeSeq` element loop; each element is serialized with
`BaseSerializer::new`, i.e. the default `NullUnit` mode. -/
def serializeValues : List Value → Except SerError Bytes
  | [] => .ok []
  | v :: vs =>
    match serialize .nullUnit v with
    | .error e => .error e
    | .ok b =>
      match serializeValues vs with
      | .error e => .error e
      | .ok r => .ok (b ++ r)

end

/-! ### The `Result::Err` payload serializer (`SerializeResultError`) -/

/-- The shapes a serde `Serialize` impl can hand to
`SerializeResultError`, one constructor per `serialize_*` entry point
of `src/ser.rs` lines 816–1024 (all integer widths collapse to `intP`,
and both float widths to `floatP`; `charP` carries the UTF-8 bytes of
the character; `newtypeStructP` is the transparent wrapper). -/
inductive ErrPayload where
  | text (s : Bytes)
  | bytesP (s : Bytes)
  | charP (utf8 : Bytes)
  | unitStructTag (name : Bytes)
  | unitVariantTag (name : Bytes)
  | newtypeStructP (p : ErrPayload)
  | boolP (b : Bool)
  | intP (n : Int)
  | floatP
  | unitP
  | noneP
  | someP
  | seqP
  | tupleP
  | tupleStructP
  | tupleVariantP
  | mapP
  | structP
  | structVariantP
  | newtypeVariantP
deriving DecidableEq, Repr

/-- `SerializeResultError`: strings, bytes, chars and named unit-like
tags are emitted through `serialize_error`; everything else fails with
`InvalidErrorPayload`. -/
def serializeResultError : ErrPayload → Except SerError Bytes
  | .text s => serializeError s
  | .bytesP s => serializeError s
  | .charP u => serializeError u
  | .unitStructTag name => serializeError name
  | .unitVariantTag name => serializeError name
  | .newtypeStructP p => serializeResultError p
  | .boolP _ => .error .invalidErrorPayload
  | .intP _ => .error .invalidErrorPayload
  | .floatP => .error .invalidErrorPayload
  | .unitP => .error .invalidErrorPayload
  | .noneP => .error .invalidErrorPayload
  | .someP => .error .invalidErrorPayload
  | .seqP => .error .invalidErrorPayload
  | .tupleP => .error .invalidErrorPayload
  | .tupleStructP => .error .invalidErrorPayload
  | .tupleVariantP => .error .invalidErrorPayload
  | .mapP => .error .invalidErrorPayload
  | .structP => .error .invalidErrorPayload
  | .structVariantP => .error .invalidErrorPayload
  | .newtypeVariantP => .error .invalidErrorPayload

/-! ### Deserializer (`src/de.rs`, `src/de/result.rs`)

`deserializeAnyH` is the body of `BaseDeserializer::deserialize_any`,
generic over the serde visitor; the `H` suffix marks the `ReadHeader`
parameter (`none` = `ParseHeader`, `some h` = a pre-parsed
`TaggedHeader`, as used by `deserialize_option` and the `Result`
access).  A visitor's `visitSeq` consumes elements from the shared
cursor and reports the final value, the remaining declared length of
the `SeqAccess`, and the final cursor. -/

/-- `de::Error` from `src/de.rs`. -/
inductive DeError where
  | parse (e : ParseError)
  | length
  | trailingData
  | unfinishedArray
  | custom (msg : String)
  | redis (msg : Bytes)
deriving DecidableEq, Repr

/-- `MAX_BULK_LENGTH`: bulk strings can be up to 512 MB. -/
def maxBulkLength : Int := 512 * 1024 * 1024

/-- `i64 -> usize` conversion (`try_into`), on a 64-bit target: fails
exactly on negative values. -/
def toUsize (n : Int) : Option Nat :=
  if n < 0 then Option.none else Option.some n.toNat

/-- The serde visitor interface, restricted to the callbacks this
deserializer can ever invoke. -/
structure Visitor (α : Type) where
  visitBool : Bool → Except DeError α
  visitBytes : Bytes → Except DeError α
  visitI64 : Int → Except DeError α
  visitUnit : Except DeError α
  visitSeq : Nat → Bytes → (Except DeError α) × Nat × Bytes
  visitEnumPlainOk : Except DeError α
  visitEnumErr : Bytes → Except DeError α
  visitEnumOk : TaggedHeader → Bytes → Except DeError (α × Bytes)

/-- The `ReadHeader` trait: a pre-parsed header returns itself without
touching the input; `ParseHeader` reads one from the input. -/
def readHeaderH : Option TaggedHeader → Bytes → Except ParseError (TaggedHeader × Bytes)
  | Option.some h, input => .ok (h, input)
  | Option.none, input => readHeader input

/-- `BaseDeserializer::deserialize_any`. -/
def deserializeAnyH (v : Visitor α) (pre : Option TaggedHeader) (input : Bytes) :
    Except DeError (α × Bytes) :=
  match readHeaderH pre input with
  | .error e => .error (.parse e)
  | .ok (h, rest) =>
    match h with
    | .simpleString p => (v.visitBytes p).map fun a => (a, rest)
    | .error p => .error (.redis p)
    | .integer n => (v.visitI64 n).map fun a => (a, rest)
    | .bulkString len =>
      if maxBulkLength < len then .error .length
      else
        match toUsize len with
        | Option.none => .error .length
        | Option.some l =>
          match readExact l rest with
          | .error e => .error (.parse e)
          | .ok (payload, rest2) => (v.visitBytes payload).map fun a => (a, rest2)
    | .array len =>
      match toUsize len with
      | Option.none => .error .length
      | Option.some l =>
        match v.visitSeq l rest with
        | (.ok a, rem, out) =>
          if 0 < rem then .error .unfinishedArray else .ok (a, out)
        | (.error (.parse (.unexpectedEof n)), rem, _) =>
          .error (.parse (.unexpectedEof (satAdd (satAdd n (satMul rem 3)) 2)))
        | (.error e, _, _) => .error e
    | .null => (v.visitUnit).map fun a => (a, rest)

/-- The `BoolVisitAdapter` from `deserialize_bool`: integers 0 and 1
are reinterpreted as booleans, everything else is forwarded. -/
def boolAdapt (v : Visitor α) : Visitor α :=
  { v with
    visitI64 := fun n =>
      if n = 0 then v.visitBool false
      else if n = 1 then v.visitBool true
      else v.visitI64 n }

/-- `BaseDeserializer::deserialize_bool`. -/
def deserializeBoolH (v : Visitor α) (pre : Option TaggedHeader) (input : Bytes) :
    Except DeError (α × Bytes) :=
  deserializeAnyH (boolAdapt v) pre input

/-- `BaseDeserializer::deserialize_enum`: the special handling applies
only to an enum named `Result` with variants `Ok`/`Err` in either
order; everything else falls through to `deserialize_any` with the
same visitor. -/
def deserializeEnumH (name : String) (variants : List String) (v : Visitor α)
    (pre : Option TaggedHeader) (input : Bytes) : Except DeError (α × Bytes) :=
  if name = "Result" ∧ (variants = ["Ok", "Err"] ∨ variants = ["Err", "Ok"]) then
    match readHeaderH pre input with
    | .error e => .error (.parse e)
    | .ok (h, rest) =>
      match h with
      | .simpleString p =>
        if p = okBytes then (v.visitEnumPlainOk).map fun a => (a, rest)
        else v.visitEnumOk (.simpleString p) rest
      | .error msg => (v.visitEnumErr msg).map fun a => (a, rest)
      | h => v.visitEnumOk h rest
  else deserializeAnyH v pre input

/-! ### The untyped `Data` decode (the generic "any value" shape)

`Data` mirrors the self-describing value used by the crate's own tests:
byte strings, integers, null, and arrays collected by draining the
sequence.  The decoder recursion is not structural on the input, so it
carries explicit fuel; `decodeData` supplies `input.length + 1`, which
is proven sufficient. -/

inductive Data where
  | null
  | str (s : Bytes)
  | int (n : Int)
  | arr (vs : List Data)

/-- The element-draining loop of a sequence visitor (`Vec`-style):
pull elements until the declared count is exhausted. -/
def dataSeqGo (elemDec : Bytes → Except DeError (Data × Bytes)) :
    Nat → Bytes → (Except DeError (List Data)) × Nat × Bytes
  | 0, input => (.ok [], 0, input)
  | len + 1, input =>
    match elemDec input with
    | .error e => (.error e, len, input)
    | .ok (v, input2) =>
      match dataSeqGo elemDec len input2 with
      | (.ok vs, rem, out) => (.ok (v :: vs), rem, out)
      | e => e

/-- The `Data` visitor (accepts bytes, integers, unit and sequences). -/
def mkDataVis (elemDec : Bytes → Except DeError (Data × Bytes)) : Visitor Data where
  visitBool := fun _ => .error (.custom "unsupported")
  visitBytes := fun s => .ok (.str s)
  visitI64 := fun n => .ok (.int n)
  visitUnit := .ok .null
  visitSeq := fun len input =>
    match dataSeqGo elemDec len input with
    | (.ok vs, rem, out) => (.ok (.arr vs), rem, out)
    | (.error e, rem, out) => (.error e, rem, out)
  visitEnumPlainOk := .error (.custom "unsupported")
  visitEnumErr := fun _ => .error (.custom "unsupported")
  visitEnumOk := fun _ _ => .error (.custom "unsupported")

/-- Fueled generic decode of one `Data` value. -/
def decodeDataF : Nat → Bytes → Except DeError (Data × Bytes)
  | 0, _ => .error (.custom "out of fuel")
  | fuel + 1, input => deserializeAnyH (mkDataVis (decodeDataF fuel)) Option.none input

/-- Decode one `Data` value from the cursor (fuel `input.length + 1`
is sufficient: every successful header read consumes at least three
bytes). -/
def decodeData (input : Bytes) : Except DeError (Data × Bytes) :=
  decodeDataF (input.length + 1) input

/-! ### Shape-driven (typed) decoding

`Shape` is the destination type description a serde `Deserialize` impl
induces: which `deserialize_*` entry point it calls and with which
visitor.  `decodeAt` is the corresponding type-driven decode. -/

inductive Shape where
  | bool
  | int
  | bytes
  | unit
  | option (s : Shape)
  | tuple (ss : List Shape)
  | result (okShape : Shape)

/-- Visitor of Rust's `bool`: accepts only `visit_bool`. -/
def boolValVis : Visitor Value where
  visitBool := fun b => .ok (.bool b)
  visitBytes := fun _ => .error (.custom "invalid type")
  visitI64 := fun _ => .error (.custom "invalid type")
  visitUnit := .error (.custom "invalid type")
  visitSeq := fun len input => (.error (.custom "invalid type"), len, input)
  visitEnumPlainOk := .error (.custom "invalid type")
  visitEnumErr := fun _ => .error (.custom "invalid type")
  visitEnumOk := fun _ _ => .error (.custom "invalid type")

/-- Visitor of a 64-bit integer destination: accepts `visit_i64`. -/
def intValVis : Visitor Value where
  visitBool := fun _ => .error (.custom "invalid type")
  visitBytes := fun _ => .error (.custom "invalid type")
  visitI64 := fun n => .ok (.int n)
  visitUnit := .error (.custom "invalid type")
  visitSeq := fun len input => (.error (.custom "invalid type"), len, input)
  visitEnumPlainOk := .error (.custom "invalid type")
  visitEnumErr := fun _ => .error (.custom "invalid type")
  visitEnumOk := fun _ _ => .error (.custom "invalid type")

/-- Visitor of a borrowed byte-string destination: accepts
`visit_borrowed_bytes`. -/
def bytesValVis : Visitor Value where
  visitBool := fun _ => .error (.custom "invalid type")
  visitBytes := fun s => .ok (.bytes s)
  visitI64 := fun _ => .error (.custom "invalid type")
  visitUnit := .error (.custom "invalid type")
  visitSeq := fun len input => (.error (.custom "invalid type"), len, input)
  visitEnumPlainOk := .error (.custom "invalid type")
  visitEnumErr := fun _ => .error (.custom "invalid type")
  visitEnumOk := fun _ _ => .error (.custom "invalid type")

/-- Visitor of the unit destination: accepts `visit_unit`. -/
def unitValVis : Visitor Value where
  visitBool := fun _ => .error (.custom "invalid type")
  visitBytes := fun _ => .error (.custom "invalid type")
  visitI64 := fun _ => .error (.custom "invalid type")
  visitUnit := .ok .unit
  visitSeq := fun len input => (.error (.custom "invalid type"), len, input)
  visitEnumPlainOk := .error (.custom "invalid type")
  visitEnumErr := fun _ => .error (.custom "invalid type")
  visitEnumOk := fun _ _ => .error (.custom "invalid type")

/-- `ResultPlainOkPattern`: the `Ok` payload decoded from a bare
`"+OK"`: unit destinations get a unit, byte/text destinations get the
text `"OK"`, every other destination is forwarded to
`deserialize_any`'s `visit_borrowed_str("OK")`, which their visitors
reject. -/
def plainOkDecode : Shape → Except DeError Value
  | .unit => .ok .unit
  | .bytes => .ok (.bytes okBytes)
  | _ => .error (.custom "invalid type")

mutual

/-- The type-driven decode: which deserializer entry point each
destination shape reaches, with its visitor.  `pre` is the optional
pre-parsed header (`deserialize_option`'s `visit_some` and the
`ResultOkPattern` re-deliver an already-parsed header). -/
def decodeAt : Shape → Option TaggedHeader → Bytes → Except DeError (Value × Bytes)
  | .bool, pre, input => deserializeBoolH boolValVis pre input
  | .int, pre, input => deserializeAnyH intValVis pre input
  | .bytes, pre, input => deserializeAnyH bytesValVis pre input
  | .unit, pre, input => deserializeAnyH unitValVis pre input
  | .option s, pre, input =>
    match readHeaderH pre input with
    | .error e => .error (.parse e)
    | .ok (h, rest) =>
      match h with
      | .null => .ok (.none, rest)
      | h => (decodeAt s (Option.some h) rest).map fun vr => (.some vr.1, vr.2)
  | .tuple ss, pre, input =>
    deserializeAnyH
      { visitBool := fun _ => .error (.custom "invalid type")
        visitBytes := fun _ => .error (.custom "invalid type")
        visitI64 := fun _ => .error (.custom "invalid type")
        visitUnit := .error (.custom "invalid type")
        visitSeq := fun len inp =>
          match decodeSeqElems ss len inp with
          | (.ok vs, rem, out) => (.ok (.tuple vs), rem, out)
          | (.error e, rem, out) => (.error e, rem, out)
        visitEnumPlainOk := .error (.custom "invalid type")
        visitEnumErr := fun _ => .error (.custom "invalid type")
        visitEnumOk := fun _ _ => .error (.custom "invalid type") } pre input
  | .result s, pre, input =>
    deserializeEnumH "Result" ["Ok", "Err"]
      { visitBool := fun _ => .error (.custom "invalid type")
        visitBytes := fun _ => .error (.custom "invalid type")
        visitI64 := fun _ => .error (.custom "invalid type")
        visitUnit := .error (.custom "invalid type")
        visitSeq := fun len inp => (.error (.custom "invalid type"), len, inp)
        visitEnumPlainOk := (plainOkDecode s).map Value.ok
        visitEnumErr := fun msg => .ok (.err msg)
        visitEnumOk := fun h rest =>
          (decodeAt s (Option.some h) rest).map fun vr => (Value.ok vr.1, vr.2) }
      pre input

/-- Tuple element decoding: serde's generated tuple visitor pulls
exactly one element per field via `SeqAccess::next_element_seed`
(which decrements the remaining length first and reports `None` at
zero, which the tuple visitor turns into an invalid-length error). -/
def decodeSeqElems : List Shape → Nat → Bytes → (Except DeError (List Value)) × Nat × Bytes
  | [], len, input => (.ok [], len, input)
  | _ :: _, 0, input => (.error (.custom "invalid length"), 0, input)
  | s :: ss, len + 1, input =>
    match decodeAt s Option.none input with
    | .error e => (.error e, len, input)
    | .ok (v, input2) =>
      match decodeSeqElems ss len input2 with
      | (.ok vs, rem, out) => (.ok (v :: vs), rem, out)
      | e => e

end

/-- `from_bytes`: decode one value from a slice, then require that the
whole input was consumed. -/
def fromBytes (s : Shape) (input : Bytes) : Except DeError Value :=
  match decodeAt s Option.none input with
  | .error e => .error e
  | .ok (v, rest) => if rest = [] then .ok v else .error .trailingData

/-- The visitor a tuple destination of element shapes `ss` induces. -/
def tupleVis (ss : List Shape) : Visitor Value where
  visitBool := fun _ => .error (.custom "invalid type")
  visitBytes := fun _ => .error (.custom "invalid type")
  visitI64 := fun _ => .error (.custom "invalid type")
  visitUnit := .error (.custom "invalid type")
  visitSeq := fun len inp =>
    match decodeSeqElems ss len inp with
    | (.ok vs, rem, out) => (.ok (.tuple vs), rem, out)
    | (.error e, rem, out) => (.error e, rem, out)
  visitEnumPlainOk := .error (.custom "invalid type")
  visitEnumErr := fun _ => .error (.custom "invalid type")
  visitEnumOk := fun _ _ => .error (.custom "invalid type")

/-- The serde `Result` visitor for an `Ok` payload of shape `s`
(`Err` payloads are byte strings). -/
def resultVis (s : Shape) : Visitor Value where
  visitBool := fun _ => .error (.custom "invalid type")
  visitBytes := fun _ => .error (.custom "invalid type")
  visitI64 := fun _ => .error (.custom "invalid type")
  visitUnit := .error (.custom "invalid type")
  visitSeq := fun len inp => (.error (.custom "invalid type"), len, inp)
  visitEnumPlainOk := (plainOkDecode s).map Value.ok
  visitEnumErr := fun msg => .ok (.err msg)
  visitEnumOk := fun h rest =>
    (decodeAt s (Option.some h) rest).map fun vr => (Value.ok vr.1, vr.2)

/-- Fuel-indexed soundness of the untyped decode: below the fuel bound,
success only moves the cursor forward by at least three bytes, and no
fuel-exhaustion (`custom`) error is ever produced. -/
def DecodeOkSuffix (fuel : Nat) : Prop :=
  ∀ input : Bytes, input.length < fuel →
    (∀ v rest, decodeDataF fuel input = .ok (v, rest) → ∃ k, 3 ≤ k ∧ rest = input.drop k)
    ∧ ∀ s, decodeDataF fuel input ≠ .error (.custom s)

/-- Fuel-indexed soundness of the sequence drain. -/
def SeqOkSuffix (fuel : Nat) : Prop :=
  ∀ (len : Nat) (input : Bytes), input.length < fuel →
    (∀ vs rem out, dataSeqGo (decodeDataF fuel) len input = (.ok vs, rem, out) →
       ∃ k, out = input.drop k)
    ∧ ∀ e rem out, dataSeqGo (decodeDataF fuel) len input = (.error e, rem, out) →
       ∀ s, e ≠ .custom s

/-! ### Claim C1: the round-trip -/

/-- Whether a value is exactly the unit value. -/
def Value.isUnit : Value → Bool
  | .unit => true
  | _ => false

/-- Whether a shape is exactly the unit shape. -/
def Shape.isUnitS : Shape → Bool
  | .unit => true
  | _ => false

/-- Whether serializing the value in the given mode yields exactly the
null sentinel `$-1\r\n` (the head of the output is a Null wire value). -/
def nullHeadB : UnitMode → Value → Bool
  | m, .unit => decide (m = .nullUnit)
  | _, .none => true
  | m, .some w => nullHeadB m w
  | _, .ok w => nullHeadB .resultOkUnit w
  | _, _ => false

/-- Whether serializing the value in the given mode yields exactly the
plain `+OK\r\n` Simple String. -/
def okHeadB : UnitMode → Value → Bool
  | m, .unit => decide (m = .resultOkUnit)
  | m, .some w => okHeadB m w
  | _, .ok w => okHeadB .resultOkUnit w
  | _, _ => false

/-- Whether serializing the value yields a wire Error value. -/
def errHeadB : Value → Bool
  | .err _ => true
  | .some w => errHeadB w
  | .ok w => errHeadB w
  | _ => false

mutual

/-- The round-trippable pairs of destination shape and value, in a
given unit mode: values in range of the wire's numeric/length limits,
excluding the collapsing corners (a `Some` whose payload serializes to
the null sentinel, an `Ok` whose payload serializes to a wire Error or
collapses to `+OK` without being the unit, an `Err` with unsafe bytes). -/
def RT : UnitMode → Shape → Value → Bool
  | _, .bool, .bool _ => true
  | _, .int, .int n => decide (i64Min ≤ n ∧ n ≤ i64Max)
  | _, .bytes, .bytes s => decide (s.length ≤ 536870912)
  | m, .unit, .unit => decide (m = .nullUnit)
  | _, .option _, .none => true
  | m, .option τ, .some w => RT m τ w && !nullHeadB m w
  | _, .tuple ss, .tuple vs => RTlist ss vs && decide ((vs.length : Int) ≤ i64Max)
  | _, .result τ, .ok w =>
      cond (okHeadB .resultOkUnit w) (w.isUnit && τ.isUnitS)
        (RT .resultOkUnit τ w && !errHeadB w)
  | _, .result _, .err msg => safeBytes msg
  | _, _, _ => false

/-- Elementwise round-trippability of a sequence (elements always
serialize in the default `NullUnit` mode). -/
def RTlist : List Shape → List Value → Bool
  | [], [] => true
  | s :: ss, v :: vs => RT .nullUnit s v && RTlist ss vs
  | _, _ => false

end

theorem natDigitsAux_irrel (f1 : Nat) : ∀ f2 n, n < f1 → n < f2 →
    natDigitsAux f1 n = natDigitsAux f2 n := by
  induction f1 with
  | zero => intro f2 n h _; omega
  | succ g ih =>
    intro f2 n h1 h2
    cases f2 with
    | zero => omega
    | succ k =>
      simp only [natDigitsAux]
      by_cases hn : n < 10
      · simp [hn]
      · have hd : n / 10 < n := Nat.div_lt_self (by omega) (by omega)
        simp only [hn, if_false]
        rw [ih k (n / 10) (by omega) (by omega)]

theorem natDigits_eq (n : Nat) :
    natDigits n = if n < 10 then [48 + n] else natDigits (n / 10) ++ [48 + n % 10] := by
  show natDigitsAux (n + 1) n = _
  simp only [natDigitsAux]
  by_cases hn : n < 10
  · simp [hn]
  · have hd : n / 10 < n := Nat.div_lt_self (by omega) (by omega)
    simp only [hn, if_false, natDigits]
    rw [natDigitsAux_irrel n (n / 10 + 1) (n / 10) (by omega) (by omega)]

theorem natDigits_range (n : Nat) : ∀ b ∈ natDigits n, 48 ≤ b ∧ b ≤ 57 := by
  induction n using Nat.strong_induction_on with
  | _ n ih =>
    rw [natDigits_eq]
    by_cases hn : n < 10
    · simp only [hn, if_true, List.mem_singleton]
      intro b hb
      omega
    · simp only [hn, if_false]
      intro b hb
      rcases List.mem_append.mp hb with h | h
      · exact ih (n / 10) (Nat.div_lt_self (by omega) (by omega)) b h
      · simp only [List.mem_singleton] at h
        omega

theorem natDigits_ne_nil (n : Nat) : natDigits n ≠ [] := by
  rw [natDigits_eq]
  by_cases hn : n < 10 <;> simp [hn]

theorem numFoldStep_bad {pos : Bool} {acc : Int} {b : Nat}
    (h : asciiToDigit b = none) : numFoldStep pos acc b = none := by
  simp [numFoldStep, h]

theorem numFoldStep_eval_pos (acc : Int) (b : Nat)
    (hdig : 48 ≤ b ∧ b ≤ 57)
    (hmul : i64Min ≤ acc * 10 ∧ acc * 10 ≤ i64Max)
    (hadd : i64Min ≤ acc * 10 + ((b : Int) - 48) ∧ acc * 10 + ((b : Int) - 48) ≤ i64Max) :
    numFoldStep true acc b = some (acc * 10 + ((b : Int) - 48)) := by
  simp only [numFoldStep, asciiToDigit, if_pos hdig, if_true, checkedMul, if_pos hmul,
    checkedAdd, if_pos hadd]

theorem numFoldStep_eval_neg (acc : Int) (b : Nat)
    (hdig : 48 ≤ b ∧ b ≤ 57)
    (hmul : i64Min ≤ acc * 10 ∧ acc * 10 ≤ i64Max)
    (hadd : i64Min ≤ acc * 10 + -((b : Int) - 48) ∧ acc * 10 + -((b : Int) - 48) ≤ i64Max) :
    numFoldStep false acc b = some (acc * 10 + -((b : Int) - 48)) := by
  simp only [numFoldStep, asciiToDigit, if_pos hdig, Bool.false_eq_true, if_false,
    checkedMul, if_pos hmul, checkedAdd, if_pos hadd]

theorem numFoldStep_some {pos : Bool} {acc : Int} {b : Nat} {r : Int}
    (h : numFoldStep pos acc b = some r) :
    (48 ≤ b ∧ b ≤ 57) ∧
      r = acc * 10 + (if pos then ((b : Int) - 48) else -((b : Int) - 48)) ∧
      i64Min ≤ r ∧ r ≤ i64Max := by
  have hdig : 48 ≤ b ∧ b ≤ 57 := by
    by_contra hc
    simp [numFoldStep, asciiToDigit, hc] at h
  simp only [numFoldStep, asciiToDigit, if_pos hdig] at h
  have hmul : i64Min ≤ acc * 10 ∧ acc * 10 ≤ i64Max := by
    by_contra hc
    simp [checkedMul, hc] at h
  simp only [checkedMul, if_pos hmul, checkedAdd] at h
  by_cases hadd : i64Min ≤ acc * 10 + (if pos then ((b : Int) - 48) else -((b : Int) - 48))
      ∧ acc * 10 + (if pos then ((b : Int) - 48) else -((b : Int) - 48)) ≤ i64Max
  · rw [if_pos hadd] at h
    simp only [Option.some.injEq] at h
    exact ⟨hdig, h.symm, h ▸ hadd⟩
  · rw [if_neg hadd] at h
    simp at h

/-- A positive digit-by-digit accumulation over the digits of `n`
computes `acc * 10 ^ digits + n`, provided the result stays in `i64`
range. -/
theorem posFold_natDigits (n : Nat) : ∀ acc : Int, 0 ≤ acc →
    acc * 10 ^ (natDigits n).length + n ≤ i64Max →
    (natDigits n).foldlM (numFoldStep true) acc
      = some (acc * 10 ^ (natDigits n).length + n) := by
  induction n using Nat.strong_induction_on with
  | _ n ih =>
    intro acc hacc hbound
    by_cases hn : n < 10
    · rw [natDigits_eq n] at hbound ⊢
      simp only [hn, if_true, List.length_singleton, pow_one] at hbound ⊢
      have hd : 48 ≤ 48 + n ∧ 48 + n ≤ 57 := by omega
      have h48 : ((48 + n : Nat) : Int) - 48 = (n : Int) := by push_cast; ring
      have hstep : numFoldStep true acc (48 + n) = some (acc * 10 + (n : Int)) := by
        have hm : i64Min ≤ acc * 10 ∧ acc * 10 ≤ i64Max := by
          simp only [i64Min, i64Max] at *
          omega
        have ha : i64Min ≤ acc * 10 + (((48 + n : Nat) : Int) - 48)
            ∧ acc * 10 + (((48 + n : Nat) : Int) - 48) ≤ i64Max := by
          rw [h48]
          simp only [i64Min, i64Max] at *
          omega
        rw [numFoldStep_eval_pos acc (48 + n) hd hm ha, h48]
      rw [List.foldlM_cons, hstep]
      rfl
    · have hdlt : n / 10 < n := Nat.div_lt_self (by omega) (by omega)
      rw [natDigits_eq n] at hbound ⊢
      simp only [hn, if_false] at hbound ⊢
      have hlen : (natDigits (n / 10) ++ [48 + n % 10]).length
          = (natDigits (n / 10)).length + 1 := by simp
      rw [hlen] at hbound ⊢
      set L := (natDigits (n / 10)).length with hL
      have hpow : (10 : Int) ^ (L + 1) = 10 ^ L * 10 := by ring
      have hq : (0 : Int) < 10 ^ L := pow_pos (by norm_num) L
      have hBnn : (0 : Int) ≤ acc * 10 ^ L := mul_nonneg hacc (le_of_lt hq)
      have hcast : ((n : Int)) = 10 * ((n / 10 : Nat) : Int) + ((n % 10 : Nat) : Int) := by
        push_cast
        omega
      have hbound2 : (acc * 10 ^ L) * 10 + (n : Int) ≤ i64Max := by
        rw [hpow] at hbound
        calc (acc * 10 ^ L) * 10 + (n : Int) = acc * (10 ^ L * 10) + n := by ring
        _ ≤ i64Max := hbound
      have hih : acc * 10 ^ L + ((n / 10 : Nat) : Int) ≤ i64Max := by
        have hr : (0 : Int) ≤ ((n % 10 : Nat) : Int) := by positivity
        simp only [i64Max] at *
        omega
      rw [List.foldlM_append, ih (n / 10) hdlt acc hacc hih]
      set A := acc * 10 ^ L + ((n / 10 : Nat) : Int) with hA
      have hAnn : (0 : Int) ≤ A := by
        have : (0 : Int) ≤ ((n / 10 : Nat) : Int) := by positivity
        omega
      have hd : 48 ≤ 48 + n % 10 ∧ 48 + n % 10 ≤ 57 := by omega
      have h48 : ((48 + n % 10 : Nat) : Int) - 48 = ((n % 10 : Nat) : Int) := by
        push_cast; ring
      have hval : A * 10 + ((n % 10 : Nat) : Int) = acc * 10 ^ (L + 1) + (n : Int) := by
        rw [hA, hpow]
        ring_nf
        ring_nf at hcast
        omega
      have hvmax : A * 10 + ((n % 10 : Nat) : Int) ≤ i64Max := by rw [hval]; exact hbound
      have hr : (0 : Int) ≤ ((n % 10 : Nat) : Int) := by positivity
      have hstep : numFoldStep true A (48 + n % 10)
          = some (A * 10 + ((n % 10 : Nat) : Int)) := by
        have hm : i64Min ≤ A * 10 ∧ A * 10 ≤ i64Max := by
          simp only [i64Min, i64Max] at *
          omega
        have ha : i64Min ≤ A * 10 + (((48 + n % 10 : Nat) : Int) - 48)
            ∧ A * 10 + (((48 + n % 10 : Nat) : Int) - 48) ≤ i64Max := by
          rw [h48]
          simp only [i64Min, i64Max] at *
          omega
        rw [numFoldStep_eval_pos A (48 + n % 10) hd hm ha, h48]
      show List.foldlM (numFoldStep true) A [48 + n % 10]
          = some (acc * 10 ^ (L + 1) + (n : Int))
      rw [List.foldlM_cons, hstep]
      show some (A * 10 + ((n % 10 : Nat) : Int)) = some (acc * 10 ^ (L + 1) + (n : Int))
      exact congrArg some hval

/-- The negative-sign accumulation over the digits of `n` computes
`acc * 10 ^ digits - n`, provided the result stays in `i64` range. -/
theorem negFold_natDigits (n : Nat) : ∀ acc : Int, acc ≤ 0 →
    i64Min ≤ acc * 10 ^ (natDigits n).length - n →
    (natDigits n).foldlM (numFoldStep false) acc
      = some (acc * 10 ^ (natDigits n).length - n) := by
  induction n using Nat.strong_induction_on with
  | _ n ih =>
    intro acc hacc hbound
    by_cases hn : n < 10
    · rw [natDigits_eq n] at hbound ⊢
      simp only [hn, if_true, List.length_singleton, pow_one] at hbound ⊢
      have hd : 48 ≤ 48 + n ∧ 48 + n ≤ 57 := by omega
      have h48 : ((48 + n : Nat) : Int) - 48 = (n : Int) := by push_cast; ring
      have hstep : numFoldStep false acc (48 + n) = some (acc * 10 - (n : Int)) := by
        have hm : i64Min ≤ acc * 10 ∧ acc * 10 ≤ i64Max := by
          simp only [i64Min, i64Max] at *
          omega
        have ha : i64Min ≤ acc * 10 + -(((48 + n : Nat) : Int) - 48)
            ∧ acc * 10 + -(((48 + n : Nat) : Int) - 48) ≤ i64Max := by
          rw [h48]
          simp only [i64Min, i64Max] at *
          omega
        rw [numFoldStep_eval_neg acc (48 + n) hd hm ha, h48, sub_eq_add_neg]
      rw [List.foldlM_cons, hstep]
      rfl
    · have hdlt : n / 10 < n := Nat.div_lt_self (by omega) (by omega)
      rw [natDigits_eq n] at hbound ⊢
      simp only [hn, if_false] at hbound ⊢
      have hlen : (natDigits (n / 10) ++ [48 + n % 10]).length
          = (natDigits (n / 10)).length + 1 := by simp
      rw [hlen] at hbound ⊢
      set L := (natDigits (n / 10)).length with hL
      have hpow : (10 : Int) ^ (L + 1) = 10 ^ L * 10 := by ring
      have hq : (0 : Int) < 10 ^ L := pow_pos (by norm_num) L
      have hBnp : acc * 10 ^ L ≤ 0 := mul_nonpos_of_nonpos_of_nonneg hacc (le_of_lt hq)
      have hcast : ((n : Int)) = 10 * ((n / 10 : Nat) : Int) + ((n % 10 : Nat) : Int) := by
        push_cast
        omega
      have hbound2 : i64Min ≤ (acc * 10 ^ L) * 10 - (n : Int) := by
        rw [hpow] at hbound
        calc i64Min ≤ acc * (10 ^ L * 10) - n := hbound
        _ = (acc * 10 ^ L) * 10 - (n : Int) := by ring
      have hih : i64Min ≤ acc * 10 ^ L - ((n / 10 : Nat) : Int) := by
        have hr : (0 : Int) ≤ ((n % 10 : Nat) : Int) := by positivity
        simp only [i64Min] at *
        omega
      rw [List.foldlM_append, ih (n / 10) hdlt acc hacc hih]
      set A := acc * 10 ^ L - ((n / 10 : Nat) : Int) with hA
      have hAnp : A ≤ 0 := by
        have : (0 : Int) ≤ ((n / 10 : Nat) : Int) := by positivity
        omega
      have hd : 48 ≤ 48 + n % 10 ∧ 48 + n % 10 ≤ 57 := by omega
      have h48 : ((48 + n % 10 : Nat) : Int) - 48 = ((n % 10 : Nat) : Int) := by
        push_cast; ring
      have hval : A * 10 + -((n % 10 : Nat) : Int) = acc * 10 ^ (L + 1) - (n : Int) := by
        rw [hA, hpow]
        ring_nf
        ring_nf at hcast
        omega
      have hvmin : i64Min ≤ A * 10 + -((n % 10 : Nat) : Int) := by rw [hval]; exact hbound
      have hr : (0 : Int) ≤ ((n % 10 : Nat) : Int) := by positivity
      have hr9 : ((n % 10 : Nat) : Int) ≤ 9 := by
        have h9 : n % 10 ≤ 9 := by omega
        exact_mod_cast Int.ofNat_le.mpr h9
      have hstep : numFoldStep false A (48 + n % 10)
          = some (A * 10 + -((n % 10 : Nat) : Int)) := by
        have hm : i64Min ≤ A * 10 ∧ A * 10 ≤ i64Max := by
          simp only [i64Min, i64Max] at *
          omega
        have ha : i64Min ≤ A * 10 + -(((48 + n % 10 : Nat) : Int) - 48)
            ∧ A * 10 + -(((48 + n % 10 : Nat) : Int) - 48) ≤ i64Max := by
          rw [h48]
          simp only [i64Min, i64Max] at *
          omega
        rw [numFoldStep_eval_neg A (48 + n % 10) hd hm ha, h48]
      show List.foldlM (numFoldStep false) A [48 + n % 10]
          = some (acc * 10 ^ (L + 1) - (n : Int))
      rw [List.foldlM_cons, hstep]
      show some (A * 10 + -((n % 10 : Nat) : Int)) = some (acc * 10 ^ (L + 1) - (n : Int))
      exact congrArg some hval

/-- `parse_number` applied to a cons cell headed by `+`. -/
theorem parseNumber_cons_plus (tl : Bytes) :
    parseNumber (43 :: tl)
      = match tl.foldlM (numFoldStep true) 0 with
        | some v => .ok v
        | none => .error .number := rfl

/-- `parse_number` applied to a cons cell headed by `-`. -/
theorem parseNumber_cons_minus (tl : Bytes) :
    parseNumber (45 :: tl)
      = match tl.foldlM (numFoldStep false) 0 with
        | some v => .ok v
        | none => .error .number := rfl

/-- `parse_number` applied to a payload headed by a non-sign byte. -/
theorem parseNumber_cons_other {b : Nat} (tl : Bytes)
    (h45 : ¬b = 45) (h43 : ¬b = 43) :
    parseNumber (b :: tl)
      = match (b :: tl).foldlM (numFoldStep true) 0 with
        | some v => .ok v
        | none => .error .number := by
  simp only [parseNumber, h45, h43, if_false]

theorem parseNumber_natDigits (n : Nat) (h : (n : Int) ≤ i64Max) :
    parseNumber (natDigits n) = .ok n := by
  obtain ⟨b, tl, hcons⟩ : ∃ b tl, natDigits n = b :: tl := by
    cases hnd : natDigits n with
    | nil => exact absurd hnd (natDigits_ne_nil n)
    | cons b tl => exact ⟨b, tl, rfl⟩
  have hrange := natDigits_range n b (hcons ▸ List.mem_cons_self b tl)
  have hfold := posFold_natDigits n 0 le_rfl (by simpa using h)
  have hb45 : ¬(b = 45) := by omega
  have hb43 : ¬(b = 43) := by omega
  rw [hcons, parseNumber_cons_other tl hb45 hb43, ← hcons, hfold]
  simp

theorem parseNumber_plusDigits (n : Nat) (h : (n : Int) ≤ i64Max) :
    parseNumber (43 :: natDigits n) = .ok n := by
  have hfold := posFold_natDigits n 0 le_rfl (by simpa using h)
  rw [parseNumber_cons_plus (natDigits n), hfold]
  simp

theorem parseNumber_minusDigits (n : Nat) (h : (n : Int) ≤ 2 ^ 63) :
    parseNumber (45 :: natDigits n) = .ok (-(n : Int)) := by
  have hfold := negFold_natDigits n 0 le_rfl
    (by simp only [i64Min, zero_mul, zero_sub]; omega)
  rw [parseNumber_cons_minus (natDigits n), hfold]
  simp

theorem parseNumber_intToDecimal (v : Int) (h1 : i64Min ≤ v) (h2 : v ≤ i64Max) :
    parseNumber (intToDecimal v) = .ok v := by
  by_cases hv : v < 0
  · simp only [intToDecimal, hv, if_true]
    have hnn : (0 : Int) ≤ -v := by omega
    have hcast : ((-v).toNat : Int) = -v := Int.toNat_of_nonneg hnn
    have hle : (((-v).toNat : Nat) : Int) ≤ 2 ^ 63 := by
      rw [hcast]
      simp only [i64Min] at h1
      omega
    rw [parseNumber_minusDigits _ hle, hcast]
    simp
  · simp only [intToDecimal, hv, if_false]
    have hnn : (0 : Int) ≤ v := by omega
    have hcast : (v.toNat : Int) = v := Int.toNat_of_nonneg hnn
    have hle : ((v.toNat : Nat) : Int) ≤ i64Max := by rw [hcast]; exact h2
    rw [parseNumber_natDigits _ hle, hcast]

theorem posFold_eq_val : ∀ (l : Bytes) (acc v : Int),
    l.foldlM (numFoldStep true) acc = some v → v = digitsValI l acc := by
  intro l
  induction l with
  | nil =>
    intro acc v h
    simp only [List.foldlM_nil, pure, Option.some.injEq] at h
    simp [digitsValI, h.symm]
  | cons b tl ih =>
    intro acc v h
    rw [List.foldlM_cons] at h
    cases hstep : numFoldStep true acc b with
    | none =>
      rw [hstep] at h
      replace h : (none : Option Int) = some v := h
      simp at h
    | some a =>
      rw [hstep] at h
      replace h : List.foldlM (numFoldStep true) a tl = some v := h
      obtain ⟨_, hval, _⟩ := numFoldStep_some hstep
      simp only [if_true] at hval
      simp only [digitsValI]
      rw [← hval]
      exact ih a v h

theorem posFold_range : ∀ (l : Bytes) (acc v : Int), l ≠ [] →
    l.foldlM (numFoldStep true) acc = some v → i64Min ≤ v ∧ v ≤ i64Max := by
  intro l
  induction l with
  | nil => intro acc v h; exact absurd rfl h
  | cons b tl ih =>
    intro acc v _ h
    rw [List.foldlM_cons] at h
    cases hstep : numFoldStep true acc b with
    | none =>
      rw [hstep] at h
      replace h : (none : Option Int) = some v := h
      simp at h
    | some a =>
      rw [hstep] at h
      replace h : List.foldlM (numFoldStep true) a tl = some v := h
      obtain ⟨_, _, hrange⟩ := numFoldStep_some hstep
      cases tl with
      | nil =>
        simp only [List.foldlM_nil, pure, Option.some.injEq] at h
        rw [← h]
        exact hrange
      | cons c tl2 => exact ih a v (by simp) h

theorem digitsValI_append (l1 l2 : Bytes) (acc : Int) :
    digitsValI (l1 ++ l2) acc = digitsValI l2 (digitsValI l1 acc) := by
  induction l1 generalizing acc with
  | nil => simp [digitsValI]
  | cons b tl ih => simp [digitsValI, ih]

theorem digitsValI_natDigits (n : Nat) : ∀ acc : Int,
    digitsValI (natDigits n) acc = acc * 10 ^ (natDigits n).length + n := by
  induction n using Nat.strong_induction_on with
  | _ n ih =>
    intro acc
    rw [natDigits_eq n]
    by_cases hn : n < 10
    · simp only [hn, if_true, List.length_singleton, pow_one, digitsValI]
      push_cast
      ring
    · have hdlt : n / 10 < n := Nat.div_lt_self (by omega) (by omega)
      simp only [hn, if_false, digitsValI_append, List.length_append,
        List.length_singleton]
      rw [ih (n / 10) hdlt acc]
      simp only [digitsValI]
      have hcast : ((n : Int)) = 10 * ((n / 10 : Nat) : Int) + ((n % 10 : Nat) : Int) := by
        push_cast
        omega
      have h48 : ((48 + n % 10 : Nat) : Int) - 48 = ((n % 10 : Nat) : Int) := by
        push_cast; ring
      rw [h48]
      set L := (natDigits (n / 10)).length
      have hpow : (10 : Int) ^ (L + 1) = 10 ^ L * 10 := by ring
      rw [hpow]
      ring_nf
      ring_nf at hcast
      omega

/-- Overflow: the digits of any natural number exceeding `i64::MAX`
fail to parse, with the `Number` error. -/
theorem parseNumber_overflow (n : Nat) (h : i64Max < (n : Int)) :
    parseNumber (natDigits n) = .error .number := by
  obtain ⟨b, tl, hcons⟩ : ∃ b tl, natDigits n = b :: tl := by
    cases hnd : natDigits n with
    | nil => exact absurd hnd (natDigits_ne_nil n)
    | cons b tl => exact ⟨b, tl, rfl⟩
  have hrange := natDigits_range n b (hcons ▸ List.mem_cons_self b tl)
  have hb45 : ¬(b = 45) := by omega
  have hb43 : ¬(b = 43) := by omega
  rw [hcons, parseNumber_cons_other tl hb45 hb43, ← hcons]
  cases hfold : (natDigits n).foldlM (numFoldStep true) 0 with
  | none => rfl
  | some v =>
    exfalso
    have hval := posFold_eq_val _ _ _ hfold
    rw [digitsValI_natDigits n 0] at hval
    simp only [zero_mul, zero_add] at hval
    have hrng := (posFold_range _ _ _ (natDigits_ne_nil n) hfold).2
    omega

theorem fold_bad_digit : ∀ (l : Bytes) (acc : Int) (pos : Bool),
    (∃ b ∈ l, asciiToDigit b = none) →
    l.foldlM (numFoldStep pos) acc = none := by
  intro l
  induction l with
  | nil => intro acc pos h; simp at h
  | cons b tl ih =>
    intro acc pos h
    rw [List.foldlM_cons]
    by_cases hb : asciiToDigit b = none
    · rw [numFoldStep_bad hb]
      rfl
    · cases hstep : numFoldStep pos acc b with
      | none => rfl
      | some a =>
        show List.foldlM (numFoldStep pos) a tl = none
        rcases h with ⟨c, hc, hcd⟩
        rcases List.mem_cons.mp hc with rfl | hmem
        · exact absurd hcd hb
        · exact ih a pos ⟨c, hmem, hcd⟩

/-- Any non-digit byte after the optional sign makes `parse_number`
fail with `Number`. -/
theorem parseNumber_nondigit (payload : Bytes)
    (h : ∃ b ∈ signStripped payload, asciiToDigit b = none) :
    parseNumber payload = .error .number := by
  cases payload with
  | nil => rfl
  | cons b tl =>
    by_cases hb45 : b = 45
    · subst hb45
      have h2 : ∃ c ∈ tl, asciiToDigit c = none := by simpa [signStripped] using h
      rw [parseNumber_cons_minus tl, fold_bad_digit tl 0 false h2]
    · by_cases hb43 : b = 43
      · subst hb43
        have h2 : ∃ c ∈ tl, asciiToDigit c = none := by simpa [signStripped] using h
        rw [parseNumber_cons_plus tl, fold_bad_digit tl 0 true h2]
      · have h2 : ∃ c ∈ b :: tl, asciiToDigit c = none := by
          simpa [signStripped, hb45, hb43] using h
        rw [parseNumber_cons_other tl hb45 hb43, fold_bad_digit (b :: tl) 0 true h2]

/-! ### Header-level parsing lemmas -/

theorem memchr2_clean_cr (l1 l2 : Bytes)
    (h : ∀ d ∈ l1, ¬(d = 13 ∨ d = 10)) :
    memchr2 13 10 (l1 ++ 13 :: l2) = some l1.length := by
  induction l1 with
  | nil => simp [memchr2]
  | cons a tl ih =>
    have ha : ¬(a = 13 ∨ a = 10) := h a (List.mem_cons_self a tl)
    simp only [List.cons_append, memchr2, if_neg ha, List.append_eq]
    rw [ih fun d hd => h d (List.mem_cons_of_mem a hd)]
    simp

theorem memchr2_clean_lf (l1 l2 : Bytes)
    (h : ∀ d ∈ l1, ¬(d = 13 ∨ d = 10)) :
    memchr2 13 10 (l1 ++ 10 :: l2) = some l1.length := by
  induction l1 with
  | nil => simp [memchr2]
  | cons a tl ih =>
    have ha : ¬(a = 13 ∨ a = 10) := h a (List.mem_cons_self a tl)
    simp only [List.cons_append, memchr2, if_neg ha, List.append_eq]
    rw [ih fun d hd => h d (List.mem_cons_of_mem a hd)]
    simp

theorem memchr2_clean_none (l : Bytes)
    (h : ∀ d ∈ l, ¬(d = 13 ∨ d = 10)) :
    memchr2 13 10 l = none := by
  induction l with
  | nil => rfl
  | cons a tl ih =>
    have ha : ¬(a = 13 ∨ a = 10) := h a (List.mem_cons_self a tl)
    simp only [memchr2, if_neg ha]
    rw [ih fun d hd => h d (List.mem_cons_of_mem a hd)]
    rfl

/-- The fast path of `read_header` is equivalent to the general path:
`read_header` always behaves like the general body. -/
theorem readHeader_eq_general (input : Bytes) :
    readHeader input = readHeaderGeneral input := by
  cases htry : trySplitAt input 5 with
  | none =>
    unfold readHeader
    rw [htry]
  | some pair =>
    obtain ⟨head, tail⟩ := pair
    unfold readHeader
    rw [htry]
    show (if head = okFast then Except.ok (TaggedHeader.simpleString okBytes, tail)
        else if head = nullFast then Except.ok (TaggedHeader.null, tail)
        else readHeaderGeneral input) = readHeaderGeneral input
    simp only [trySplitAt] at htry
    by_cases hle : 5 ≤ input.length
    · rw [if_pos hle] at htry
      simp only [Option.some.injEq, Prod.mk.injEq] at htry
      obtain ⟨hhead, htail⟩ := htry
      by_cases h1 : head = okFast
      · rw [if_pos h1]
        have hin : input = okFast ++ tail := by
          rw [← h1, ← hhead, ← htail, List.take_append_drop]
        rw [hin]
        rfl
      · rw [if_neg h1]
        by_cases h2 : head = nullFast
        · rw [if_pos h2]
          have hin : input = nullFast ++ tail := by
            rw [← h2, ← hhead, ← htail, List.take_append_drop]
          rw [hin]
          rfl
        · rw [if_neg h2]
    · rw [if_neg hle] at htry
      exact absurd htry (by simp)

theorem readHeaderGeneral_cons (tag : Nat) (rest : Bytes) :
    readHeaderGeneral (tag :: rest)
      = match memchr2 13 10 rest with
        | none => .error (.unexpectedEof 2)
        | some idx => readHeaderTail tag (rest.take idx) (rest.drop idx) := rfl

theorem readHeaderGeneral_found (tag : Nat) (rest : Bytes) (idx : Nat)
    (hm : memchr2 13 10 rest = some idx) :
    readHeaderGeneral (tag :: rest) = readHeaderTail tag (rest.take idx) (rest.drop idx) := by
  rw [readHeaderGeneral_cons, hm]

theorem readHeaderTail_eq (tag : Nat) (payload rest : Bytes) :
    readHeaderTail tag payload rest
      = match readEndline rest with
        | .error e => .error e
        | .ok (_, rest2) => (headerDispatch tag payload).map fun h => (h, rest2) := rfl

theorem readHeaderTail_endline_err (tag : Nat) (payload rest : Bytes) (e : ParseError)
    (h : readEndline rest = .error e) :
    readHeaderTail tag payload rest = .error e := by
  rw [readHeaderTail_eq, h]

/-- Parsing a well-formed header line: one tag byte, a CR/LF-free
payload, then `\r\n`. -/
theorem readHeader_line (tag : Nat) (payload tail : Bytes)
    (hclean : ∀ d ∈ payload, ¬(d = 13 ∨ d = 10)) :
    readHeader (tag :: payload ++ 13 :: 10 :: tail)
      = (headerDispatch tag payload).map fun h => (h, tail) := by
  rw [List.cons_append, readHeader_eq_general,
    readHeaderGeneral_found tag _ payload.length
      (memchr2_clean_cr payload (10 :: tail) hclean),
    List.take_left, List.drop_left]
  rfl

theorem readHeader_empty : readHeader [] = .error (.unexpectedEof 3) := by decide

theorem readHeader_no_newline (tag : Nat) (rest : Bytes)
    (h : ∀ d ∈ rest, ¬(d = 13 ∨ d = 10)) :
    readHeader (tag :: rest) = .error (.unexpectedEof 2) := by
  rw [readHeader_eq_general, readHeaderGeneral_cons, memchr2_clean_none rest h]

theorem readHeader_cr_at_end (tag : Nat) (pre : Bytes)
    (h : ∀ d ∈ pre, ¬(d = 13 ∨ d = 10)) :
    readHeader (tag :: pre ++ [13]) = .error (.unexpectedEof 1) := by
  rw [List.cons_append, readHeader_eq_general,
    readHeaderGeneral_found tag _ pre.length
      (by rw [show pre ++ [13] = pre ++ 13 :: ([] : Bytes) from rfl]
          exact memchr2_clean_cr pre [] h),
    show pre ++ [13] = pre ++ 13 :: ([] : Bytes) from rfl,
    List.take_left, List.drop_left]
  rfl

theorem readHeader_cr_not_lf (tag : Nat) (pre : Bytes) (b : Nat) (post : Bytes)
    (h : ∀ d ∈ pre, ¬(d = 13 ∨ d = 10)) (hb : ¬b = 10) :
    readHeader (tag :: pre ++ 13 :: b :: post) = .error .malformedNewline := by
  rw [List.cons_append]
  have hend : readEndline (13 :: b :: post) = .error .malformedNewline := by
    simp only [readEndline]
    rw [if_neg]
    intro hc
    exact hb hc.2
  rw [readHeader_eq_general,
    readHeaderGeneral_found tag _ pre.length
      (memchr2_clean_cr pre (b :: post) h),
    List.take_left, List.drop_left,
    readHeaderTail_endline_err tag pre _ _ hend]

theorem readHeader_lf_no_cr (tag : Nat) (pre : Bytes) (post : Bytes)
    (h : ∀ d ∈ pre, ¬(d = 13 ∨ d = 10)) :
    readHeader (tag :: pre ++ 10 :: post) = .error .malformedNewline := by
  rw [List.cons_append]
  have hend : readEndline (10 :: post) = .error .malformedNewline := by
    cases post with
    | nil => simp [readEndline]
    | cons c rest =>
      simp only [readEndline]
      rw [if_neg]
      intro hc
      exact absurd hc.1 (by norm_num)
  rw [readHeader_eq_general,
    readHeaderGeneral_found tag _ pre.length
      (memchr2_clean_lf pre post h),
    List.take_left, List.drop_left,
    readHeaderTail_endline_err tag pre _ _ hend]

theorem readHeader_bad_tag (tag : Nat) (payload tail : Bytes)
    (hclean : ∀ d ∈ payload, ¬(d = 13 ∨ d = 10))
    (htag : ¬tag = 43 ∧ ¬tag = 45 ∧ ¬tag = 58 ∧ ¬tag = 36 ∧ ¬tag = 42) :
    readHeader (tag :: payload ++ 13 :: 10 :: tail) = .error (.badTag tag) := by
  rw [readHeader_line tag payload tail hclean]
  obtain ⟨h1, h2, h3, h4, h5⟩ := htag
  simp [headerDispatch, h1, h2, h3, h4, h5, Except.map]

theorem natDigits_clean (n : Nat) : ∀ d ∈ natDigits n, ¬(d = 13 ∨ d = 10) := by
  intro d hd
  have := natDigits_range n d hd
  omega

theorem intToDecimal_clean (v : Int) : ∀ d ∈ intToDecimal v, ¬(d = 13 ∨ d = 10) := by
  intro d hd
  simp only [intToDecimal] at hd
  by_cases hv : v < 0
  · rw [if_pos hv] at hd
    rcases List.mem_cons.mp hd with rfl | hmem
    · omega
    · have := natDigits_range _ d hmem
      omega
  · rw [if_neg hv] at hd
    have := natDigits_range _ d hd
    omega

/-- Parsing an encoded `:{v}\r\n` integer header. -/
theorem readHeader_int (v : Int) (tail : Bytes) (h1 : i64Min ≤ v) (h2 : v ≤ i64Max) :
    readHeader (58 :: intToDecimal v ++ 13 :: 10 :: tail) = .ok (.integer v, tail) := by
  rw [readHeader_line 58 _ tail (intToDecimal_clean v)]
  simp [headerDispatch, parseNumber_intToDecimal v h1 h2, Except.map]

/-- Parsing an encoded `${n}\r\n` bulk-string header for `n ≥ 0`. -/
theorem readHeader_bulkNat (n : Nat) (tail : Bytes) (h : (n : Int) ≤ i64Max) :
    readHeader (36 :: natDigits n ++ 13 :: 10 :: tail) = .ok (.bulkString n, tail) := by
  rw [readHeader_line 36 _ tail (natDigits_clean n)]
  have hne : ¬((n : Int) = -1) := by omega
  simp [headerDispatch, parseNumber_natDigits n h, Except.map, hne]

/-- Parsing an encoded `*{n}\r\n` array header for `n ≥ 0`. -/
theorem readHeader_arrayNat (n : Nat) (tail : Bytes) (h : (n : Int) ≤ i64Max) :
    readHeader (42 :: natDigits n ++ 13 :: 10 :: tail) = .ok (.array n, tail) := by
  rw [readHeader_line 42 _ tail (natDigits_clean n)]
  have hne : ¬((n : Int) = -1) := by omega
  simp [headerDispatch, parseNumber_natDigits n h, Except.map, hne]

theorem cons_clean {b : Nat} {l : Bytes} (hb : ¬(b = 13 ∨ b = 10))
    (hl : ∀ d ∈ l, ¬(d = 13 ∨ d = 10)) : ∀ d ∈ b :: l, ¬(d = 13 ∨ d = 10) := by
  intro d hd
  rcases List.mem_cons.mp hd with rfl | hmem
  · exact hb
  · exact hl d hmem

/-- Parsing an encoded `$-{m}\r\n` bulk-string header for `m ≥ 2`
(negative declared length other than the −1 sentinel). -/
theorem readHeader_bulkNeg (m : Nat) (tail : Bytes) (h2 : 2 ≤ m)
    (h3 : (m : Int) ≤ 2 ^ 63) :
    readHeader (36 :: (45 :: natDigits m) ++ 13 :: 10 :: tail)
      = .ok (.bulkString (-(m : Int)), tail) := by
  rw [readHeader_line 36 _ tail (cons_clean (by omega) (natDigits_clean m))]
  have hne : ¬(-(m : Int) = -1) := by omega
  simp [headerDispatch, parseNumber_minusDigits m h3, Except.map, hne]

/-- Parsing an encoded `*-{m}\r\n` array header for `m ≥ 2`. -/
theorem readHeader_arrayNeg (m : Nat) (tail : Bytes) (h2 : 2 ≤ m)
    (h3 : (m : Int) ≤ 2 ^ 63) :
    readHeader (42 :: (45 :: natDigits m) ++ 13 :: 10 :: tail)
      = .ok (.array (-(m : Int)), tail) := by
  rw [readHeader_line 42 _ tail (cons_clean (by omega) (natDigits_clean m))]
  have hne : ¬(-(m : Int) = -1) := by omega
  simp [headerDispatch, parseNumber_minusDigits m h3, Except.map, hne]

/-- Parsing an encoded `-{msg}\r\n` error header. -/
theorem readHeader_err (msg tail : Bytes)
    (hclean : ∀ d ∈ msg, ¬(d = 13 ∨ d = 10)) :
    readHeader (45 :: msg ++ 13 :: 10 :: tail) = .ok (.error msg, tail) := by
  rw [readHeader_line 45 msg tail hclean]
  simp [headerDispatch, Except.map]

/-- Parsing `"+OK\r\n" ++ tail`. -/
theorem readHeader_okFast (tail : Bytes) :
    readHeader (okFast ++ tail) = .ok (.simpleString okBytes, tail) := by
  have h := readHeader_line 43 [79, 75] tail (by decide)
  simpa [headerDispatch, Except.map, okFast, okBytes] using h

/-- Parsing `"$-1\r\n" ++ tail`. -/
theorem readHeader_nullFast (tail : Bytes) :
    readHeader (nullFast ++ tail) = .ok (.null, tail) := by
  have h := readHeader_line 36 [45, 49] tail (by decide)
  have hnum : parseNumber [45, 49] = .ok (-1) := by decide
  simpa [headerDispatch, Except.map, nullFast, hnum] using h

/-- Claim C4 counterexample: the payload `"-"` has zero digit bytes
after its optional sign, yet `parse_number` succeeds with 0 instead of
failing with `Number` (the fold over zero digits returns the initial
accumulator). -/
theorem claim_C4_counterexample :
    parseNumber [45] = .ok 0 ∧ parseNumber [45] ≠ .error .number := by
  constructor
  · decide
  · decide

/-- Claim C4 (amended): the number parser accepts an optional leading
`+` or `-` followed by ASCII digit bytes; an empty payload fails with
`Number`; a payload that is only a sign parses to 0 (not an error); any
non-digit byte after the optional sign, or any overflow of the checked
64-bit accumulation (multiply by 10, add digit), fails with `Number`;
and numerically equal payloads parse to the same value (`"-001"`
parses to −1). -/
theorem claim_C4 :
    (parseNumber [] = .error .number)
    ∧ (parseNumber [45] = .ok 0 ∧ parseNumber [43] = .ok 0)
    ∧ (∀ n : Nat, (n : Int) ≤ i64Max →
        parseNumber (natDigits n) = .ok n ∧ parseNumber (43 :: natDigits n) = .ok n)
    ∧ (∀ n : Nat, (n : Int) ≤ 2 ^ 63 →
        parseNumber (45 :: natDigits n) = .ok (-(n : Int)))
    ∧ (∀ payload : Bytes, (∃ b ∈ signStripped payload, asciiToDigit b = none) →
        parseNumber payload = .error .number)
    ∧ (∀ n : Nat, i64Max < (n : Int) → parseNumber (natDigits n) = .error .number)
    ∧ (parseNumber [45, 48, 48, 49] = .ok (-1)) :=
  ⟨by decide, ⟨by decide, by decide⟩,
    fun n h => ⟨parseNumber_natDigits n h, parseNumber_plusDigits n h⟩,
    parseNumber_minusDigits, parseNumber_nondigit, parseNumber_overflow, by decide⟩

theorem claim_C4_witness :
    parseNumber (natDigits 123) = .ok 123
    ∧ parseNumber (45 :: natDigits 9) = .ok (-9)
    ∧ parseNumber [53, 120] = .error .number
    ∧ parseNumber (natDigits 9223372036854775808) = .error .number :=
  ⟨(claim_C4.2.2.1 123 (by decide)).1,
    claim_C4.2.2.2.1 9 (by decide),
    claim_C4.2.2.2.2.1 [53, 120] (by decide),
    claim_C4.2.2.2.2.2.1 9223372036854775808 (by decide)⟩

/-- Claim C7: the header parser's `UnexpectedEof` byte counts (3 on an
empty buffer, 2 once the tag is present but no CR/LF follows, 1 when
the input ends right after the CR), `MalformedNewline` when CR is not
followed by LF or LF appears without CR, and `BadTag` for an
unrecognized leading byte on a well-formed line. -/
theorem claim_C7 :
    (readHeader [] = .error (.unexpectedEof 3))
    ∧ (∀ (tag : Nat) (rest : Bytes), (∀ d ∈ rest, ¬(d = 13 ∨ d = 10)) →
        readHeader (tag :: rest) = .error (.unexpectedEof 2))
    ∧ (∀ (tag : Nat) (pre : Bytes), (∀ d ∈ pre, ¬(d = 13 ∨ d = 10)) →
        readHeader (tag :: pre ++ [13]) = .error (.unexpectedEof 1))
    ∧ (∀ (tag : Nat) (pre : Bytes) (b : Nat) (post : Bytes),
        (∀ d ∈ pre, ¬(d = 13 ∨ d = 10)) → ¬b = 10 →
        readHeader (tag :: pre ++ 13 :: b :: post) = .error .malformedNewline)
    ∧ (∀ (tag : Nat) (pre post : Bytes), (∀ d ∈ pre, ¬(d = 13 ∨ d = 10)) →
        readHeader (tag :: pre ++ 10 :: post) = .error .malformedNewline)
    ∧ (∀ (tag : Nat) (payload tail : Bytes),
        (∀ d ∈ payload, ¬(d = 13 ∨ d = 10)) →
        (¬tag = 43 ∧ ¬tag = 45 ∧ ¬tag = 58 ∧ ¬tag = 36 ∧ ¬tag = 42) →
        readHeader (tag :: payload ++ 13 :: 10 :: tail) = .error (.badTag tag)) :=
  ⟨readHeader_empty, readHeader_no_newline, readHeader_cr_at_end,
    readHeader_cr_not_lf, readHeader_lf_no_cr, readHeader_bad_tag⟩

theorem claim_C7_witness :
    readHeader [43, 79, 75] = .error (.unexpectedEof 2)
    ∧ readHeader [43, 79, 75, 13] = .error (.unexpectedEof 1)
    ∧ readHeader [58, 49, 13, 120, 10] = .error .malformedNewline
    ∧ readHeader [58, 49, 10, 13] = .error .malformedNewline
    ∧ readHeader [120, 65, 66, 67, 13, 10] = .error (.badTag 120) :=
  ⟨claim_C7.2.1 43 [79, 75] (by decide),
    claim_C7.2.2.1 43 [79, 75] (by decide),
    claim_C7.2.2.2.1 58 [49] 120 [10] (by decide) (by decide),
    claim_C7.2.2.2.2.1 58 [49] [13] (by decide),
    claim_C7.2.2.2.2.2 120 [65, 66, 67] [] (by decide) (by decide)⟩

theorem serialize_bool (m : UnitMode) (b : Bool) :
    serialize m (.bool b) = serializeNumber (if b then 1 else 0) := rfl

theorem serialize_int (m : UnitMode) (n : Int) :
    serialize m (.int n) = serializeNumber n := rfl

theorem serialize_bytesV (m : UnitMode) (s : Bytes) :
    serialize m (.bytes s) = serializeBulkString s := rfl

theorem serialize_unitV (m : UnitMode) : serialize m .unit = .ok m.payload := rfl

theorem serialize_noneV (m : UnitMode) : serialize m .none = .ok nullFast := rfl

theorem serialize_errV (m : UnitMode) (msg : Bytes) :
    serialize m (.err msg) = serializeError msg := rfl

theorem serialize_someV (m : UnitMode) (w : Value) :
    serialize m (.some w) = serialize m w := rfl

theorem serialize_okV (m : UnitMode) (w : Value) :
    serialize m (.ok w) = serialize .resultOkUnit w := rfl

theorem serialize_tupleV (m : UnitMode) (vs : List Value) :
    serialize m (.tuple vs)
      = match serializeArrayHeader vs.length with
        | .error e => .error e
        | .ok hd =>
          match serializeValues vs with
          | .error e => .error e
          | .ok body => .ok (hd ++ body) := rfl

/-- Claim C5: encoding a CR/LF-free byte string S as a Failure payload
writes exactly `"-" ++ S ++ "\r\n"`; a payload containing CR or LF
fails with BadSimpleString; a named unit-like tag is emitted like its
name text; and every other payload shape fails with
InvalidErrorPayload. -/
theorem claim_C5 :
    (∀ s : Bytes, safeBytes s = true →
      serializeResultError (.text s) = .ok (45 :: s ++ [13, 10])
      ∧ serializeResultError (.bytesP s) = .ok (45 :: s ++ [13, 10])
      ∧ ∀ m : UnitMode, serialize m (.err s) = .ok (45 :: s ++ [13, 10]))
    ∧ (∀ s : Bytes, safeBytes s = false →
      serializeResultError (.text s) = .error .badSimpleString
      ∧ serializeResultError (.bytesP s) = .error .badSimpleString
      ∧ ∀ m : UnitMode, serialize m (.err s) = .error .badSimpleString)
    ∧ (∀ name : Bytes, safeBytes name = true →
      serializeResultError (.unitStructTag name) = .ok (45 :: name ++ [13, 10])
      ∧ serializeResultError (.unitVariantTag name) = .ok (45 :: name ++ [13, 10]))
    ∧ ((∀ b, serializeResultError (.boolP b) = .error .invalidErrorPayload)
      ∧ (∀ n, serializeResultError (.intP n) = .error .invalidErrorPayload)
      ∧ serializeResultError .floatP = .error .invalidErrorPayload
      ∧ serializeResultError .unitP = .error .invalidErrorPayload
      ∧ serializeResultError .noneP = .error .invalidErrorPayload
      ∧ serializeResultError .someP = .error .invalidErrorPayload
      ∧ serializeResultError .seqP = .error .invalidErrorPayload
      ∧ serializeResultError .tupleP = .error .invalidErrorPayload
      ∧ serializeResultError .tupleStructP = .error .invalidErrorPayload
      ∧ serializeResultError .tupleVariantP = .error .invalidErrorPayload
      ∧ serializeResultError .mapP = .error .invalidErrorPayload
      ∧ serializeResultError .structP = .error .invalidErrorPayload
      ∧ serializeResultError .structVariantP = .error .invalidErrorPayload
      ∧ serializeResultError .newtypeVariantP = .error .invalidErrorPayload) := by
  refine ⟨fun s hs => ⟨?_, ?_, fun m => ?_⟩, fun s hs => ⟨?_, ?_, fun m => ?_⟩,
    fun name hs => ⟨?_, ?_⟩, ?_⟩
  · simp [serializeResultError, serializeError, hs]
  · simp [serializeResultError, serializeError, hs]
  · rw [serialize_errV]
    simp [serializeError, hs]
  · simp [serializeResultError, serializeError, hs]
  · simp [serializeResultError, serializeError, hs]
  · rw [serialize_errV]
    simp [serializeError, hs]
  · simp [serializeResultError, serializeError, hs]
  · simp [serializeResultError, serializeError, hs]
  · exact ⟨fun b => rfl, fun n => rfl, rfl, rfl, rfl, rfl, rfl, rfl, rfl, rfl,
      rfl, rfl, rfl, rfl⟩

theorem claim_C5_witness :
    serializeResultError (.text [69, 82, 82]) = .ok [45, 69, 82, 82, 13, 10]
    ∧ serializeResultError (.bytesP [69, 13, 82]) = .error .badSimpleString
    ∧ serializeResultError (.unitVariantTag [78, 79]) = .ok [45, 78, 79, 13, 10]
    ∧ serializeResultError (.intP 7) = .error .invalidErrorPayload :=
  ⟨(claim_C5.1 [69, 82, 82] (by decide)).1,
    (claim_C5.2.1 [69, 13, 82] (by decide)).2.1,
    (claim_C5.2.2.1 [78, 79] (by decide)).2,
    claim_C5.2.2.2.2.1 7⟩

/-- Claim C6: a unit encodes as the null bulk-string sentinel
`"$-1\r\n"` in the default mode and as `"+OK\r\n"` in the
`ResultOkUnit` mode entered by the Success arm; the mode is part of the
serializer configuration (the encoding of unit is a function of the
mode alone, and entering `Result::Ok` switches the mode regardless of
the current one); an absent option always encodes as `"$-1\r\n"`. -/
theorem claim_C6 :
    (serialize .nullUnit .unit = .ok [36, 45, 49, 13, 10])
    ∧ (serialize .nullUnit (.ok .unit) = .ok [43, 79, 75, 13, 10])
    ∧ (∀ m : UnitMode, serialize m .unit = .ok m.payload)
    ∧ (UnitMode.payload .nullUnit = [36, 45, 49, 13, 10]
      ∧ UnitMode.payload .resultOkUnit = [43, 79, 75, 13, 10])
    ∧ (∀ (m : UnitMode) (w : Value), serialize m (.ok w) = serialize .resultOkUnit w)
    ∧ (∀ m : UnitMode, serialize m .none = .ok [36, 45, 49, 13, 10]) :=
  ⟨rfl, rfl, fun m => rfl, ⟨rfl, rfl⟩, fun m w => rfl, fun m => rfl⟩

/-! ### Dispatch lemmas for the deserializer -/

theorem anyH_parse {α : Type} (v : Visitor α) (input : Bytes) :
    deserializeAnyH v Option.none input
      = match readHeader input with
        | .error e => .error (.parse e)
        | .ok (h, rest) => deserializeAnyH v (Option.some h) rest := by
  cases hr : readHeader input with
  | error e =>
    simp only [deserializeAnyH, readHeaderH, hr]
  | ok pr =>
    obtain ⟨h, rest⟩ := pr
    show deserializeAnyH v Option.none input = deserializeAnyH v (Option.some h) rest
    simp only [deserializeAnyH, readHeaderH, hr]

theorem anyH_pre_simple {α : Type} (v : Visitor α) (p : Bytes) (input : Bytes) :
    deserializeAnyH v (Option.some (.simpleString p)) input
      = (v.visitBytes p).map fun a => (a, input) := rfl

theorem anyH_pre_error {α : Type} (v : Visitor α) (p : Bytes) (input : Bytes) :
    deserializeAnyH v (Option.some (.error p)) input = .error (.redis p) := rfl

theorem anyH_pre_integer {α : Type} (v : Visitor α) (n : Int) (input : Bytes) :
    deserializeAnyH v (Option.some (.integer n)) input
      = (v.visitI64 n).map fun a => (a, input) := rfl

theorem anyH_pre_null {α : Type} (v : Visitor α) (input : Bytes) :
    deserializeAnyH v (Option.some .null) input
      = (v.visitUnit).map fun a => (a, input) := rfl

theorem anyH_pre_bulk {α : Type} (v : Visitor α) (len : Int) (input : Bytes) :
    deserializeAnyH v (Option.some (.bulkString len)) input
      = if maxBulkLength < len then .error .length
        else
          match toUsize len with
          | Option.none => .error .length
          | Option.some l =>
            match readExact l input with
            | .error e => .error (.parse e)
            | .ok (payload, rest2) => (v.visitBytes payload).map fun a => (a, rest2) := rfl

theorem anyH_pre_array {α : Type} (v : Visitor α) (len : Int) (input : Bytes) :
    deserializeAnyH v (Option.some (.array len)) input
      = match toUsize len with
        | Option.none => .error .length
        | Option.some l =>
          match v.visitSeq l input with
          | (.ok a, rem, out) => if 0 < rem then .error .unfinishedArray else .ok (a, out)
          | (.error (.parse (.unexpectedEof n)), rem, _) =>
            .error (.parse (.unexpectedEof (satAdd (satAdd n (satMul rem 3)) 2)))
          | (.error e, _, _) => .error e := rfl

theorem toUsize_natCast (n : Nat) : toUsize (n : Int) = Option.some n := by
  simp [toUsize]

theorem toUsize_neg {n : Int} (h : n < 0) : toUsize n = Option.none := by
  simp [toUsize, h]

theorem anyH_pre_bulk_neg {α : Type} (v : Visitor α) {len : Int} (input : Bytes)
    (hneg : len < 0) :
    deserializeAnyH v (Option.some (.bulkString len)) input = .error .length := by
  rw [anyH_pre_bulk, if_neg (by simp only [maxBulkLength]; omega), toUsize_neg hneg]

theorem anyH_pre_bulk_over {α : Type} (v : Visitor α) {len : Int} (input : Bytes)
    (hover : maxBulkLength < len) :
    deserializeAnyH v (Option.some (.bulkString len)) input = .error .length := by
  rw [anyH_pre_bulk, if_pos hover]

theorem anyH_pre_array_neg {α : Type} (v : Visitor α) {len : Int} (input : Bytes)
    (hneg : len < 0) :
    deserializeAnyH v (Option.some (.array len)) input = .error .length := by
  rw [anyH_pre_array, toUsize_neg hneg]

theorem anyH_pre_array_nat {α : Type} (v : Visitor α) (len : Nat) (input : Bytes) :
    deserializeAnyH v (Option.some (.array (len : Int))) input
      = match v.visitSeq len input with
        | (.ok a, rem, out) => if 0 < rem then .error .unfinishedArray else .ok (a, out)
        | (.error (.parse (.unexpectedEof n)), rem, _) =>
          .error (.parse (.unexpectedEof (satAdd (satAdd n (satMul rem 3)) 2)))
        | (.error e, _, _) => .error e := by
  rw [anyH_pre_array, toUsize_natCast]

theorem enumH_result_parse {α : Type} (v : Visitor α) (input : Bytes) :
    deserializeEnumH "Result" ["Ok", "Err"] v Option.none input
      = match readHeader input with
        | .error e => .error (.parse e)
        | .ok (h, rest) => deserializeEnumH "Result" ["Ok", "Err"] v (Option.some h) rest := by
  cases hr : readHeader input with
  | error e =>
    simp only [deserializeEnumH, readHeaderH, hr, true_and, true_or, if_true]
  | ok pr =>
    obtain ⟨h, rest⟩ := pr
    show deserializeEnumH "Result" ["Ok", "Err"] v Option.none input
        = deserializeEnumH "Result" ["Ok", "Err"] v (Option.some h) rest
    simp only [deserializeEnumH, readHeaderH, hr, true_and, true_or, if_true]

theorem enumH_pre_simple {α : Type} (v : Visitor α) (p : Bytes) (input : Bytes) :
    deserializeEnumH "Result" ["Ok", "Err"] v (Option.some (.simpleString p)) input
      = if p = okBytes then (v.visitEnumPlainOk).map fun a => (a, input)
        else v.visitEnumOk (.simpleString p) input := rfl

theorem enumH_pre_error {α : Type} (v : Visitor α) (msg : Bytes) (input : Bytes) :
    deserializeEnumH "Result" ["Ok", "Err"] v (Option.some (.error msg)) input
      = (v.visitEnumErr msg).map fun a => (a, input) := rfl

theorem enumH_pre_integer {α : Type} (v : Visitor α) (n : Int) (input : Bytes) :
    deserializeEnumH "Result" ["Ok", "Err"] v (Option.some (.integer n)) input
      = v.visitEnumOk (.integer n) input := rfl

theorem enumH_pre_bulk {α : Type} (v : Visitor α) (len : Int) (input : Bytes) :
    deserializeEnumH "Result" ["Ok", "Err"] v (Option.some (.bulkString len)) input
      = v.visitEnumOk (.bulkString len) input := rfl

theorem enumH_pre_arr {α : Type} (v : Visitor α) (len : Int) (input : Bytes) :
    deserializeEnumH "Result" ["Ok", "Err"] v (Option.some (.array len)) input
      = v.visitEnumOk (.array len) input := rfl

theorem enumH_pre_null {α : Type} (v : Visitor α) (input : Bytes) :
    deserializeEnumH "Result" ["Ok", "Err"] v (Option.some .null) input
      = v.visitEnumOk .null input := rfl

theorem decodeAt_bool (pre : Option TaggedHeader) (input : Bytes) :
    decodeAt .bool pre input = deserializeBoolH boolValVis pre input := rfl

theorem decodeAt_int (pre : Option TaggedHeader) (input : Bytes) :
    decodeAt .int pre input = deserializeAnyH intValVis pre input := rfl

theorem decodeAt_bytes (pre : Option TaggedHeader) (input : Bytes) :
    decodeAt .bytes pre input = deserializeAnyH bytesValVis pre input := rfl

theorem decodeAt_unit (pre : Option TaggedHeader) (input : Bytes) :
    decodeAt .unit pre input = deserializeAnyH unitValVis pre input := rfl

theorem decodeAt_tuple (ss : List Shape) (pre : Option TaggedHeader) (input : Bytes) :
    decodeAt (.tuple ss) pre input = deserializeAnyH (tupleVis ss) pre input := rfl

theorem decodeAt_result (s : Shape) (pre : Option TaggedHeader) (input : Bytes) :
    decodeAt (.result s) pre input
      = deserializeEnumH "Result" ["Ok", "Err"] (resultVis s) pre input := rfl

theorem decodeAt_option_pre (s : Shape) (h : TaggedHeader) (input : Bytes) :
    decodeAt (.option s) (Option.some h) input
      = match h with
        | .null => .ok (.none, input)
        | h => (decodeAt s (Option.some h) input).map fun vr => (.some vr.1, vr.2) := rfl

/-- A type-driven decode with no pre-parsed header first reads one
header from the cursor and then proceeds exactly as with that header
pre-parsed. -/
theorem decodeAt_parse (s : Shape) (input : Bytes) :
    decodeAt s Option.none input
      = match readHeader input with
        | .error e => .error (.parse e)
        | .ok (h, rest) => decodeAt s (Option.some h) rest := by
  cases s with
  | bool =>
    rw [decodeAt_bool]
    show deserializeAnyH (boolAdapt boolValVis) Option.none input = _
    rw [anyH_parse]
    cases readHeader input with
    | error e => rfl
    | ok pr => rfl
  | int =>
    rw [decodeAt_int, anyH_parse]
    cases readHeader input with
    | error e => rfl
    | ok pr => rfl
  | bytes =>
    rw [decodeAt_bytes, anyH_parse]
    cases readHeader input with
    | error e => rfl
    | ok pr => rfl
  | unit =>
    rw [decodeAt_unit, anyH_parse]
    cases readHeader input with
    | error e => rfl
    | ok pr => rfl
  | option s =>
    show (match readHeader input with
      | Except.error e => (Except.error (DeError.parse e) : Except DeError (Value × Bytes))
      | Except.ok (h, rest) =>
        match h with
        | TaggedHeader.null => Except.ok (Value.none, rest)
        | h => (decodeAt s (Option.some h) rest).map fun vr => (Value.some vr.1, vr.2))
      = match readHeader input with
        | Except.error e => Except.error (DeError.parse e)
        | Except.ok (h, rest) => decodeAt (Shape.option s) (Option.some h) rest
    cases readHeader input with
    | error e => rfl
    | ok pr =>
      obtain ⟨h, rest⟩ := pr
      cases h <;> rfl
  | tuple ss =>
    rw [decodeAt_tuple, anyH_parse]
    cases readHeader input with
    | error e => rfl
    | ok pr => rfl
  | result s =>
    rw [decodeAt_result, enumH_result_parse]
    cases readHeader input with
    | error e => rfl
    | ok pr => rfl

/-! ### Claim C10 -/

/-- C10: `deserialize_enum` special-cases only the exact name "Result"
with variant lists ["Ok","Err"] or ["Err","Ok"]; for any other
name/variant combination it behaves exactly like `deserialize_any`
with the same visitor, pre-parsed header, and input. -/
theorem claim_C10 {α : Type} (v : Visitor α) (name : String) (variants : List String)
    (pre : Option TaggedHeader) (input : Bytes)
    (h : ¬(name = "Result" ∧ (variants = ["Ok", "Err"] ∨ variants = ["Err", "Ok"]))) :
    deserializeEnumH name variants v pre input = deserializeAnyH v pre input := by
  rw [deserializeEnumH, if_neg h]

theorem claim_C10_witness :
    deserializeEnumH "Foo" ["A", "B"] (mkDataVis (decodeDataF 4)) Option.none [58, 53, 13, 10]
      = deserializeAnyH (mkDataVis (decodeDataF 4)) Option.none [58, 53, 13, 10] :=
  claim_C10 (mkDataVis (decodeDataF 4)) "Foo" ["A", "B"] Option.none [58, 53, 13, 10]
    (by decide)

/-! ### Claim C8 -/

/-- C8 counterexample: on `*9223372036854775807\r\n` (array header of
i64::MAX with empty body) the reported Eof requirement is the usize
saturation value 2^64-1, not `3 + 3*remaining + 2` computed exactly:
both exact-arithmetic readings of the spec's formula differ from it. -/
theorem claim_C8_counterexample :
    decodeData [42, 57, 50, 50, 51, 51, 55, 50, 48, 51, 54, 56, 53, 52, 55,
                55, 53, 56, 48, 55, 13, 10]
      = .error (.parse (.unexpectedEof 18446744073709551615))
    ∧ (18446744073709551615 : Nat) ≠ 3 + 9223372036854775806 * 3 + 2
    ∧ (18446744073709551615 : Nat) ≠ 3 + 9223372036854775807 * 3 + 2 :=
  ⟨by rfl, by decide, by decide⟩

/-- C8 (amended): when decoding an array whose element sequence stops
with UnexpectedEof(n) and `rem` elements still pending, the error is
enlarged to UnexpectedEof(n.saturating_add(rem.saturating_mul(3)).saturating_add(2))
in saturating usize arithmetic. -/
theorem claim_C8 {α : Type} (vis : Visitor α) (len : Nat) (input : Bytes)
    (n rem : Nat) (rest : Bytes)
    (h : vis.visitSeq len input = (.error (.parse (.unexpectedEof n)), rem, rest)) :
    deserializeAnyH vis (Option.some (.array (len : Int))) input
      = .error (.parse (.unexpectedEof (satAdd (satAdd n (satMul rem 3)) 2))) := by
  rw [anyH_pre_array_nat, h]

theorem claim_C8_witness :
    (mkDataVis (decodeDataF 1)).visitSeq 7 []
      = (.error (.parse (.unexpectedEof 3)), 6, ([] : Bytes))
    ∧ deserializeAnyH (mkDataVis (decodeDataF 1)) (Option.some (.array ((7 : Nat) : Int))) []
      = .error (.parse (.unexpectedEof (satAdd (satAdd 3 (satMul 6 3)) 2))) :=
  ⟨by rfl, claim_C8 (mkDataVis (decodeDataF 1)) 7 [] 3 6 [] (by rfl)⟩

/-! ### Claims C2 and C3 -/

theorem decodeDataF_succ (fuel : Nat) (input : Bytes) :
    decodeDataF (fuel + 1) input
      = deserializeAnyH (mkDataVis (decodeDataF fuel)) Option.none input := rfl

theorem decodeData_eq (input : Bytes) :
    decodeData input
      = deserializeAnyH (mkDataVis (decodeDataF input.length)) Option.none input := rfl

theorem readExact_exact (l tail : Bytes) :
    readExact l.length (l ++ 13 :: 10 :: tail) = .ok (l, tail) := by
  have hsplit : trySplitAt (l ++ 13 :: 10 :: tail) l.length
      = some (l, 13 :: 10 :: tail) := by
    simp [trySplitAt, List.length_append, Nat.le_add_right, List.take_left, List.drop_left]
  rw [readExact, hsplit]
  simp [readEndline]

theorem decodeData_err (msg tail : Bytes) (hclean : ∀ d ∈ msg, ¬(d = 13 ∨ d = 10)) :
    decodeData (45 :: msg ++ 13 :: 10 :: tail) = .error (.redis msg) := by
  rw [decodeData_eq, anyH_parse, readHeader_err msg tail hclean]
  rfl

theorem decodeResult_err (s : Shape) (msg tail : Bytes)
    (hclean : ∀ d ∈ msg, ¬(d = 13 ∨ d = 10)) :
    decodeAt (.result s) Option.none (45 :: msg ++ 13 :: 10 :: tail)
      = .ok (.err msg, tail) := by
  rw [decodeAt_parse, readHeader_err msg tail hclean]
  rfl

theorem decodeResult_redispatch (s : Shape) (input rest : Bytes) (h : TaggedHeader)
    (hr : readHeader input = .ok (h, rest))
    (hs : h ≠ .simpleString okBytes) (herr : ∀ p, h ≠ .error p) :
    decodeAt (.result s) Option.none input
      = (decodeAt s (Option.some h) rest).map fun vr => (Value.ok vr.1, vr.2) := by
  cases h with
  | simpleString p =>
    have hp : p ≠ okBytes := fun he => hs (by rw [he])
    rw [decodeAt_result, enumH_result_parse, hr]
    show deserializeEnumH "Result" ["Ok", "Err"] (resultVis s)
        (Option.some (TaggedHeader.simpleString p)) rest = _
    rw [enumH_pre_simple, if_neg hp]
    rfl
  | error p => exact absurd rfl (herr p)
  | integer n =>
    rw [decodeAt_result, enumH_result_parse, hr]
    rfl
  | bulkString len =>
    rw [decodeAt_result, enumH_result_parse, hr]
    rfl
  | array len =>
    rw [decodeAt_result, enumH_result_parse, hr]
    rfl
  | null =>
    rw [decodeAt_result, enumH_result_parse, hr]
    rfl

/-- C2: decoding a wire Error at the generic any-value shape fails with
Redis(message); at the Ok/Err Result union it instead succeeds with the
Err arm carrying the raw bytes; `+OK\r\n` at the Result union yields
Ok(()) for a unit payload and Ok("OK") for a bytes payload; any other
header is re-dispatched through the any-value path as the Ok payload. -/
theorem claim_C2 :
    (∀ (msg tail : Bytes), (∀ d ∈ msg, ¬(d = 13 ∨ d = 10)) →
      decodeData (45 :: msg ++ 13 :: 10 :: tail) = .error (.redis msg))
    ∧ (∀ (s : Shape) (msg tail : Bytes), (∀ d ∈ msg, ¬(d = 13 ∨ d = 10)) →
      decodeAt (.result s) Option.none (45 :: msg ++ 13 :: 10 :: tail)
        = .ok (.err msg, tail))
    ∧ fromBytes (.result .unit) [43, 79, 75, 13, 10] = .ok (.ok .unit)
    ∧ fromBytes (.result .bytes) [43, 79, 75, 13, 10] = .ok (.ok (.bytes [79, 75]))
    ∧ (∀ (s : Shape) (input rest : Bytes) (h : TaggedHeader),
        readHeader input = .ok (h, rest) →
        h ≠ .simpleString okBytes → (∀ p, h ≠ .error p) →
        decodeAt (.result s) Option.none input
          = (decodeAt s (Option.some h) rest).map fun vr => (Value.ok vr.1, vr.2)) :=
  ⟨decodeData_err, decodeResult_err, by rfl, by rfl, decodeResult_redispatch⟩

theorem claim_C2_witness :
    decodeData [45, 69, 82, 82, 13, 10] = .error (.redis [69, 82, 82])
    ∧ decodeAt (.result .int) Option.none [45, 69, 82, 82, 13, 10]
      = .ok (.err [69, 82, 82], [])
    ∧ decodeAt (.result .int) Option.none [58, 53, 13, 10]
      = (decodeAt .int (Option.some (.integer 5)) []).map fun vr => (Value.ok vr.1, vr.2) :=
  ⟨claim_C2.1 [69, 82, 82] [] (by decide),
   claim_C2.2.1 .int [69, 82, 82] [] (by decide),
   claim_C2.2.2.2.2 .int [58, 53, 13, 10] [] (.integer 5) (by decide) (by decide)
     (fun p h => TaggedHeader.noConfusion h)⟩

theorem decodeData_bulkNeg (m : Nat) (tail : Bytes) (h2 : 2 ≤ m) (h3 : (m : Int) ≤ 2 ^ 63) :
    decodeData (36 :: (45 :: natDigits m) ++ 13 :: 10 :: tail) = .error .length := by
  rw [decodeData_eq, anyH_parse, readHeader_bulkNeg m tail h2 h3]
  exact anyH_pre_bulk_neg _ tail (by omega)

theorem decodeData_arrayNeg (m : Nat) (tail : Bytes) (h2 : 2 ≤ m) (h3 : (m : Int) ≤ 2 ^ 63) :
    decodeData (42 :: (45 :: natDigits m) ++ 13 :: 10 :: tail) = .error .length := by
  rw [decodeData_eq, anyH_parse, readHeader_arrayNeg m tail h2 h3]
  exact anyH_pre_array_neg _ tail (by omega)

theorem decodeData_bulkOver (n : Nat) (tail : Bytes) (h1 : 536870912 < n)
    (h2 : (n : Int) ≤ i64Max) :
    decodeData (36 :: natDigits n ++ 13 :: 10 :: tail) = .error .length := by
  rw [decodeData_eq, anyH_parse, readHeader_bulkNat n tail h2]
  exact anyH_pre_bulk_over _ tail (by simp only [maxBulkLength]; omega)

theorem decodeData_bulkOk (payload tail : Bytes) (h : payload.length ≤ 536870912) :
    decodeData (36 :: natDigits payload.length ++ 13 :: 10 :: (payload ++ 13 :: 10 :: tail))
      = .ok (.str payload, tail) := by
  rw [decodeData_eq, anyH_parse,
      readHeader_bulkNat payload.length (payload ++ 13 :: 10 :: tail)
        (by simp only [i64Max]; omega)]
  simp only [anyH_pre_bulk]
  rw [if_neg (by simp only [maxBulkLength]; omega), toUsize_natCast]
  simp only [readExact_exact]
  rfl

/-- C3 counterexample: an Array header whose length exceeds the 512 MiB
ceiling is NOT rejected with Length — the ceiling is only checked for
BulkString headers; `*536870913\r\n` instead fails with the enlarged
UnexpectedEof from draining the sequence. -/
theorem claim_C3_counterexample :
    decodeData [42, 53, 51, 54, 56, 55, 48, 57, 49, 51, 13, 10]
      = .error (.parse (.unexpectedEof 1610612741))
    ∧ (Except.error (DeError.parse (.unexpectedEof 1610612741))
        : Except DeError (Data × Bytes)) ≠ Except.error DeError.length :=
  ⟨by rfl, fun h => absurd (Except.error.inj h) (by decide)⟩

/-- C3 (amended): negative non-(-1) lengths fail with Length for both
BulkString and Array headers; a BulkString length above 512 MiB fails
with Length before any payload slicing (any tail); and a BulkString of
declared length N ≤ 536870912 followed by N bytes and CRLF decodes to
those bytes. The over-ceiling check does NOT apply to Array headers. -/
theorem claim_C3 :
    (∀ (m : Nat) (tail : Bytes), 2 ≤ m → (m : Int) ≤ 2 ^ 63 →
      decodeData (36 :: (45 :: natDigits m) ++ 13 :: 10 :: tail) = .error .length)
    ∧ (∀ (m : Nat) (tail : Bytes), 2 ≤ m → (m : Int) ≤ 2 ^ 63 →
      decodeData (42 :: (45 :: natDigits m) ++ 13 :: 10 :: tail) = .error .length)
    ∧ (∀ (n : Nat) (tail : Bytes), 536870912 < n → (n : Int) ≤ i64Max →
      decodeData (36 :: natDigits n ++ 13 :: 10 :: tail) = .error .length)
    ∧ (∀ (payload tail : Bytes), payload.length ≤ 536870912 →
      decodeData (36 :: natDigits payload.length ++ 13 :: 10 :: (payload ++ 13 :: 10 :: tail))
        = .ok (.str payload, tail)) :=
  ⟨decodeData_bulkNeg, decodeData_arrayNeg, decodeData_bulkOver, decodeData_bulkOk⟩

theorem claim_C3_witness :
    decodeData [36, 45, 50, 13, 10] = .error .length
    ∧ decodeData [42, 45, 50, 13, 10] = .error .length
    ∧ decodeData (36 :: natDigits 536870913 ++ 13 :: 10 :: []) = .error .length
    ∧ decodeData (36 :: natDigits 3 ++ 13 :: 10 :: ([97, 98, 99] ++ 13 :: 10 :: []))
      = .ok (.str [97, 98, 99], []) :=
  ⟨claim_C3.1 2 [] (by decide) (by decide),
   claim_C3.2.1 2 [] (by decide) (by decide),
   claim_C3.2.2.1 536870913 [] (by decide) (by decide),
   claim_C3.2.2.2 [97, 98, 99] [] (by decide)⟩

/-! ### Claim C9: consumption and totality of decoding -/

theorem readEndline_ok_shape (l r : Bytes) (u : Unit)
    (h : readEndline l = .ok (u, r)) : l = 13 :: 10 :: r := by
  match l with
  | [] => exact absurd h (by simp [readEndline])
  | [b] =>
    by_cases hb : b = 13 <;> simp [readEndline, hb] at h
  | a :: b :: rest =>
    by_cases hab : a = 13 ∧ b = 10
    · rw [show readEndline (a :: b :: rest)
          = if a = 13 ∧ b = 10 then .ok ((), rest) else .error .malformedNewline from rfl,
        if_pos hab] at h
      injection h with h2
      injection h2 with hu hr
      rw [hab.1, hab.2, hr]
    · rw [show readEndline (a :: b :: rest)
          = if a = 13 ∧ b = 10 then .ok ((), rest) else .error .malformedNewline from rfl,
        if_neg hab] at h
      exact Except.noConfusion h

theorem readHeaderTail_ok_shape (tag : Nat) (payload input : Bytes)
    (h : TaggedHeader) (rest2 : Bytes)
    (hok : readHeaderTail tag payload input = .ok (h, rest2)) :
    input = 13 :: 10 :: rest2 := by
  cases he : readEndline input with
  | error e =>
    rw [readHeaderTail_eq] at hok
    simp only [he] at hok
    exact Except.noConfusion hok
  | ok pr =>
    obtain ⟨u, r⟩ := pr
    rw [readHeaderTail_eq] at hok
    simp only [he] at hok
    have hrr : r = rest2 := by
      cases hd : headerDispatch tag payload with
      | error e =>
        rw [hd] at hok
        simp only [Except.map] at hok
        exact Except.noConfusion hok
      | ok hh =>
        rw [hd] at hok
        simp only [Except.map, Except.ok.injEq, Prod.mk.injEq] at hok
        exact hok.2
    rw [readEndline_ok_shape input r u he, hrr]

/-- A successful header read leaves the cursor at a proper suffix of
the input, at least three bytes in. -/
theorem readHeader_consumes (input : Bytes) (h : TaggedHeader) (rest : Bytes)
    (hr : readHeader input = .ok (h, rest)) :
    ∃ k, 3 ≤ k ∧ rest = input.drop k := by
  rw [readHeader_eq_general] at hr
  match input with
  | [] => exact absurd hr (by simp [readHeaderGeneral])
  | tag :: r0 =>
    rw [readHeaderGeneral_cons] at hr
    cases hm : memchr2 13 10 r0 with
    | none =>
      simp only [hm] at hr
      exact Except.noConfusion hr
    | some idx =>
      simp only [hm] at hr
      have hend := readHeaderTail_ok_shape tag (r0.take idx) (r0.drop idx) h rest hr
      refine ⟨idx + 3, by omega, ?_⟩
      rw [List.drop_succ_cons]
      rw [← List.drop_drop, hend]
      rfl

/-- A successful `read_exact` of `l` bytes leaves the cursor `l + 2`
bytes further into the input. -/
theorem readExact_consumes (l : Nat) (input p rest : Bytes)
    (h : readExact l input = .ok (p, rest)) : rest = input.drop (l + 2) := by
  by_cases hl : l ≤ input.length
  · have hs : trySplitAt input l = some (input.take l, input.drop l) := by
      rw [trySplitAt, if_pos hl]
    simp only [readExact, hs] at h
    cases he : readEndline (input.drop l) with
    | error e =>
      simp only [he] at h
      exact Except.noConfusion h
    | ok pr =>
      obtain ⟨u, r⟩ := pr
      simp only [he] at h
      injection h with h2
      injection h2 with hp hr
      have hdr := readEndline_ok_shape (input.drop l) r u he
      rw [← hr, ← List.drop_drop, hdr]
      rfl
  · have hs : trySplitAt input l = none := by
      rw [trySplitAt, if_neg hl]
    simp only [readExact, hs] at h
    exact Except.noConfusion h

/-- `deserialize_any` with a pre-parsed header only ever returns a
cursor that is a drop-suffix of its input (bounds-checked slicing),
provided the visitor's sequence callback does the same on success. -/
theorem anyH_suffix_pre {α : Type} (v : Visitor α) (hh : TaggedHeader)
    (input : Bytes) (a : α) (rest : Bytes)
    (hseq : ∀ l inp res rem out, v.visitSeq l inp = (res, rem, out) →
              ∀ x, res = .ok x → ∃ k, out = inp.drop k)
    (h : deserializeAnyH v (Option.some hh) input = .ok (a, rest)) :
    ∃ k, rest = input.drop k := by
  cases hh with
  | simpleString p =>
    rw [anyH_pre_simple] at h
    cases hb : v.visitBytes p with
    | error e => rw [hb] at h; exact Except.noConfusion h
    | ok b =>
      rw [hb] at h
      simp only [Except.map, Except.ok.injEq, Prod.mk.injEq] at h
      exact ⟨0, by rw [List.drop_zero, ← h.2]⟩
  | error p => rw [anyH_pre_error] at h; exact Except.noConfusion h
  | integer n =>
    rw [anyH_pre_integer] at h
    cases hb : v.visitI64 n with
    | error e => rw [hb] at h; exact Except.noConfusion h
    | ok b =>
      rw [hb] at h
      simp only [Except.map, Except.ok.injEq, Prod.mk.injEq] at h
      exact ⟨0, by rw [List.drop_zero, ← h.2]⟩
  | null =>
    rw [anyH_pre_null] at h
    cases hb : v.visitUnit with
    | error e => rw [hb] at h; exact Except.noConfusion h
    | ok b =>
      rw [hb] at h
      simp only [Except.map, Except.ok.injEq, Prod.mk.injEq] at h
      exact ⟨0, by rw [List.drop_zero, ← h.2]⟩
  | bulkString len =>
    rw [anyH_pre_bulk] at h
    by_cases hov : maxBulkLength < len
    · rw [if_pos hov] at h; exact Except.noConfusion h
    · rw [if_neg hov] at h
      cases hu : toUsize len with
      | none => simp only [hu] at h; exact Except.noConfusion h
      | some l =>
        simp only [hu] at h
        cases hre : readExact l input with
        | error e => simp only [hre] at h; exact Except.noConfusion h
        | ok pr =>
          obtain ⟨payload, rest2⟩ := pr
          simp only [hre] at h
          cases hb : v.visitBytes payload with
          | error e => rw [hb] at h; exact Except.noConfusion h
          | ok b =>
            rw [hb] at h
            simp only [Except.map, Except.ok.injEq, Prod.mk.injEq] at h
            exact ⟨l + 2, by rw [← h.2, readExact_consumes l input payload rest2 hre]⟩
  | array len =>
    rw [anyH_pre_array] at h
    cases hu : toUsize len with
    | none => simp only [hu] at h; exact Except.noConfusion h
    | some l =>
      simp only [hu] at h
      cases hs : v.visitSeq l input with
      | mk res pr2 =>
        obtain ⟨rem, out⟩ := pr2
        cases res with
        | ok x =>
          simp only [hs] at h
          by_cases hrem : 0 < rem
          · rw [if_pos hrem] at h; exact Except.noConfusion h
          · rw [if_neg hrem] at h
            simp only [Except.ok.injEq, Prod.mk.injEq] at h
            obtain ⟨k, hk⟩ := hseq l input (.ok x) rem out hs x rfl
            exact ⟨k, by rw [← h.2, hk]⟩
        | error e =>
          cases e with
          | parse pe =>
            cases pe with
            | unexpectedEof n => simp only [hs] at h; exact Except.noConfusion h
            | malformedNewline => simp only [hs] at h; exact Except.noConfusion h
            | badTag t => simp only [hs] at h; exact Except.noConfusion h
            | number => simp only [hs] at h; exact Except.noConfusion h
          | length => simp only [hs] at h; exact Except.noConfusion h
          | trailingData => simp only [hs] at h; exact Except.noConfusion h
          | unfinishedArray => simp only [hs] at h; exact Except.noConfusion h
          | custom s => simp only [hs] at h; exact Except.noConfusion h
          | redis m => simp only [hs] at h; exact Except.noConfusion h

/-- As `anyH_suffix_pre`, for a decode that first reads a header. -/
theorem anyH_suffix_parse {α : Type} (v : Visitor α) (input : Bytes) (a : α) (rest : Bytes)
    (hseq : ∀ l inp res rem out, v.visitSeq l inp = (res, rem, out) →
              ∀ x, res = .ok x → ∃ k, out = inp.drop k)
    (h : deserializeAnyH v Option.none input = .ok (a, rest)) :
    ∃ k, rest = input.drop k := by
  rw [anyH_parse] at h
  cases hr : readHeader input with
  | error e => simp only [hr] at h; exact Except.noConfusion h
  | ok pr =>
    obtain ⟨hh, rest0⟩ := pr
    simp only [hr] at h
    obtain ⟨k1, _, hk1⟩ := readHeader_consumes input hh rest0 hr
    obtain ⟨k2, hk2⟩ := anyH_suffix_pre v hh rest0 a rest hseq h
    exact ⟨k1 + k2, by rw [hk2, hk1, List.drop_drop]⟩

/-- The `Result` enum path likewise only moves the cursor forward,
provided the `Ok`-payload callback does. -/
theorem enumH_suffix_pre {α : Type} (v : Visitor α) (hh : TaggedHeader)
    (input : Bytes) (a : α) (rest : Bytes)
    (henum : ∀ h2 inp b r, v.visitEnumOk h2 inp = .ok (b, r) → ∃ k, r = inp.drop k)
    (h : deserializeEnumH "Result" ["Ok", "Err"] v (Option.some hh) input = .ok (a, rest)) :
    ∃ k, rest = input.drop k := by
  cases hh with
  | simpleString p =>
    rw [enumH_pre_simple] at h
    by_cases hp : p = okBytes
    · rw [if_pos hp] at h
      cases hb : v.visitEnumPlainOk with
      | error e => rw [hb] at h; exact Except.noConfusion h
      | ok b =>
        rw [hb] at h
        simp only [Except.map, Except.ok.injEq, Prod.mk.injEq] at h
        exact ⟨0, by rw [List.drop_zero, ← h.2]⟩
    · rw [if_neg hp] at h
      exact henum _ _ _ _ h
  | error msg =>
    rw [enumH_pre_error] at h
    cases hb : v.visitEnumErr msg with
    | error e => rw [hb] at h; exact Except.noConfusion h
    | ok b =>
      rw [hb] at h
      simp only [Except.map, Except.ok.injEq, Prod.mk.injEq] at h
      exact ⟨0, by rw [List.drop_zero, ← h.2]⟩
  | integer n => rw [enumH_pre_integer] at h; exact henum _ _ _ _ h
  | bulkString len => rw [enumH_pre_bulk] at h; exact henum _ _ _ _ h
  | array len => rw [enumH_pre_arr] at h; exact henum _ _ _ _ h
  | null => rw [enumH_pre_null] at h; exact henum _ _ _ _ h

theorem enumH_suffix_parse {α : Type} (v : Visitor α) (input : Bytes) (a : α) (rest : Bytes)
    (henum : ∀ h2 inp b r, v.visitEnumOk h2 inp = .ok (b, r) → ∃ k, r = inp.drop k)
    (h : deserializeEnumH "Result" ["Ok", "Err"] v Option.none input = .ok (a, rest)) :
    ∃ k, rest = input.drop k := by
  rw [enumH_result_parse] at h
  cases hr : readHeader input with
  | error e => simp only [hr] at h; exact Except.noConfusion h
  | ok pr =>
    obtain ⟨hh, rest0⟩ := pr
    simp only [hr] at h
    obtain ⟨k1, _, hk1⟩ := readHeader_consumes input hh rest0 hr
    obtain ⟨k2, hk2⟩ := enumH_suffix_pre v hh rest0 a rest henum h
    exact ⟨k1 + k2, by rw [hk2, hk1, List.drop_drop]⟩

theorem dataSeqGo_zero (f : Bytes → Except DeError (Data × Bytes)) (input : Bytes) :
    dataSeqGo f 0 input = (.ok [], 0, input) := rfl

theorem dataSeqGo_succ (f : Bytes → Except DeError (Data × Bytes)) (len : Nat)
    (input : Bytes) :
    dataSeqGo f (len + 1) input
      = match f input with
        | .error e => (.error e, len, input)
        | .ok (v, input2) =>
          match dataSeqGo f len input2 with
          | (.ok vs, rem, out) => (.ok (v :: vs), rem, out)
          | e => e := rfl

theorem decodeDataF_sound : ∀ fuel, DecodeOkSuffix fuel ∧ SeqOkSuffix fuel := by
  intro fuel
  induction fuel with
  | zero =>
    exact ⟨fun input h => absurd h (Nat.not_lt_zero _),
           fun len input h => absurd h (Nat.not_lt_zero _)⟩
  | succ F ih =>
    obtain ⟨ihP, ihQ⟩ := ih
    have hP : DecodeOkSuffix (F + 1) := by
      intro input hlen
      have hstep : decodeDataF (F + 1) input
          = match readHeader input with
            | .error e => .error (.parse e)
            | .ok (h, rest) => deserializeAnyH (mkDataVis (decodeDataF F)) (Option.some h) rest := by
        rw [decodeDataF_succ, anyH_parse]
      cases hr : readHeader input with
      | error e =>
        have heq : decodeDataF (F + 1) input = .error (.parse e) := by
          rw [hstep]
          simp only [hr]
        constructor
        · intro v rest h
          rw [heq] at h
          exact Except.noConfusion h
        · intro s hcon
          rw [heq] at hcon
          injection hcon with h2
          exact DeError.noConfusion h2
      | ok pr =>
        obtain ⟨hh, rest0⟩ := pr
        have heq : decodeDataF (F + 1) input
            = deserializeAnyH (mkDataVis (decodeDataF F)) (Option.some hh) rest0 := by
          rw [hstep]
          simp only [hr]
        obtain ⟨k, hk3, hkdrop⟩ := readHeader_consumes input hh rest0 hr
        have hrlen : rest0.length = input.length - k := by
          rw [hkdrop, List.length_drop]
        have hpos : 1 ≤ input.length := by
          cases input with
          | nil =>
            rw [show readHeader [] = .error (.unexpectedEof 3) from rfl] at hr
            exact Except.noConfusion hr
          | cons a t => simp
        cases hh with
        | simpleString p =>
          have heq2 : decodeDataF (F + 1) input = .ok (.str p, rest0) := by
            rw [heq]
            rfl
          constructor
          · intro v rest h
            rw [heq2] at h
            simp only [Except.ok.injEq, Prod.mk.injEq] at h
            exact ⟨k, hk3, by rw [← h.2, hkdrop]⟩
          · intro s hcon
            rw [heq2] at hcon
            exact Except.noConfusion hcon
        | error p =>
          have heq2 : decodeDataF (F + 1) input = .error (.redis p) := by
            rw [heq]
            rfl
          constructor
          · intro v rest h
            rw [heq2] at h
            exact Except.noConfusion h
          · intro s hcon
            rw [heq2] at hcon
            injection hcon with h2
            exact DeError.noConfusion h2
        | integer n =>
          have heq2 : decodeDataF (F + 1) input = .ok (.int n, rest0) := by
            rw [heq]
            rfl
          constructor
          · intro v rest h
            rw [heq2] at h
            simp only [Except.ok.injEq, Prod.mk.injEq] at h
            exact ⟨k, hk3, by rw [← h.2, hkdrop]⟩
          · intro s hcon
            rw [heq2] at hcon
            exact Except.noConfusion hcon
        | null =>
          have heq2 : decodeDataF (F + 1) input = .ok (.null, rest0) := by
            rw [heq]
            rfl
          constructor
          · intro v rest h
            rw [heq2] at h
            simp only [Except.ok.injEq, Prod.mk.injEq] at h
            exact ⟨k, hk3, by rw [← h.2, hkdrop]⟩
          · intro s hcon
            rw [heq2] at hcon
            exact Except.noConfusion hcon
        | bulkString len =>
          by_cases hov : maxBulkLength < len
          · have heq2 : decodeDataF (F + 1) input = .error .length := by
              rw [heq, anyH_pre_bulk, if_pos hov]
            constructor
            · intro v rest h
              rw [heq2] at h
              exact Except.noConfusion h
            · intro s hcon
              rw [heq2] at hcon
              injection hcon with h2
              exact DeError.noConfusion h2
          · cases hu : toUsize len with
            | none =>
              have heq2 : decodeDataF (F + 1) input = .error .length := by
                rw [heq, anyH_pre_bulk, if_neg hov]
                simp only [hu]
              constructor
              · intro v rest h
                rw [heq2] at h
                exact Except.noConfusion h
              · intro s hcon
                rw [heq2] at hcon
                injection hcon with h2
                exact DeError.noConfusion h2
            | some l =>
              cases hre : readExact l rest0 with
              | error e =>
                have heq2 : decodeDataF (F + 1) input = .error (.parse e) := by
                  rw [heq, anyH_pre_bulk, if_neg hov]
                  simp only [hu, hre]
                constructor
                · intro v rest h
                  rw [heq2] at h
                  exact Except.noConfusion h
                · intro s hcon
                  rw [heq2] at hcon
                  injection hcon with h2
                  exact DeError.noConfusion h2
              | ok pr2 =>
                obtain ⟨payload, rest2⟩ := pr2
                have heq2 : decodeDataF (F + 1) input = .ok (.str payload, rest2) := by
                  rw [heq, anyH_pre_bulk, if_neg hov]
                  simp only [hu, hre]
                  rfl
                have hr2 : rest2 = input.drop (k + (l + 2)) := by
                  rw [readExact_consumes l rest0 payload rest2 hre, hkdrop, List.drop_drop]
                constructor
                · intro v rest h
                  rw [heq2] at h
                  simp only [Except.ok.injEq, Prod.mk.injEq] at h
                  exact ⟨k + (l + 2), by omega, by rw [← h.2, hr2]⟩
                · intro s hcon
                  rw [heq2] at hcon
                  exact Except.noConfusion hcon
        | array len =>
          cases hu : toUsize len with
          | none =>
            have heq2 : decodeDataF (F + 1) input = .error .length := by
              rw [heq, anyH_pre_array]
              simp only [hu]
            constructor
            · intro v rest h
              rw [heq2] at h
              exact Except.noConfusion h
            · intro s hcon
              rw [heq2] at hcon
              injection hcon with h2
              exact DeError.noConfusion h2
          | some l =>
            have hrF : rest0.length < F := by omega
            obtain ⟨ihQok, ihQerr⟩ := ihQ l rest0 hrF
            cases hgo : dataSeqGo (decodeDataF F) l rest0 with
            | mk res pr2 =>
              obtain ⟨rem, out⟩ := pr2
              cases res with
              | ok vs =>
                by_cases hrem : 0 < rem
                · have heq2 : decodeDataF (F + 1) input = .error .unfinishedArray := by
                    rw [heq, anyH_pre_array]
                    simp only [hu, mkDataVis, hgo, if_pos hrem]
                  constructor
                  · intro v rest h
                    rw [heq2] at h
                    exact Except.noConfusion h
                  · intro s hcon
                    rw [heq2] at hcon
                    injection hcon with h2
                    exact DeError.noConfusion h2
                · have heq2 : decodeDataF (F + 1) input = .ok (.arr vs, out) := by
                    rw [heq, anyH_pre_array]
                    simp only [hu, mkDataVis, hgo, if_neg hrem]
                  obtain ⟨k2, hk2⟩ := ihQok vs rem out hgo
                  constructor
                  · intro v rest h
                    rw [heq2] at h
                    simp only [Except.ok.injEq, Prod.mk.injEq] at h
                    refine ⟨k + k2, by omega, ?_⟩
                    rw [← h.2, hk2, hkdrop, List.drop_drop]
                  · intro s hcon
                    rw [heq2] at hcon
                    exact Except.noConfusion hcon
              | error e =>
                cases e with
                | parse pe =>
                  cases pe with
                  | unexpectedEof n =>
                    have heq2 : decodeDataF (F + 1) input
                        = .error (.parse (.unexpectedEof (satAdd (satAdd n (satMul rem 3)) 2))) := by
                      rw [heq, anyH_pre_array]
                      simp only [hu, mkDataVis, hgo]
                    constructor
                    · intro v rest h
                      rw [heq2] at h
                      exact Except.noConfusion h
                    · intro s hcon
                      rw [heq2] at hcon
                      injection hcon with h2
                      exact DeError.noConfusion h2
                  | malformedNewline =>
                    have heq2 : decodeDataF (F + 1) input = .error (.parse .malformedNewline) := by
                      rw [heq, anyH_pre_array]
                      simp only [hu, mkDataVis, hgo]
                    constructor
                    · intro v rest h
                      rw [heq2] at h
                      exact Except.noConfusion h
                    · intro s hcon
                      rw [heq2] at hcon
                      injection hcon with h2
                      exact DeError.noConfusion h2
                  | badTag t =>
                    have heq2 : decodeDataF (F + 1) input = .error (.parse (.badTag t)) := by
                      rw [heq, anyH_pre_array]
                      simp only [hu, mkDataVis, hgo]
                    constructor
                    · intro v rest h
                      rw [heq2] at h
                      exact Except.noConfusion h
                    · intro s hcon
                      rw [heq2] at hcon
                      injection hcon with h2
                      exact DeError.noConfusion h2
                  | number =>
                    have heq2 : decodeDataF (F + 1) input = .error (.parse .number) := by
                      rw [heq, anyH_pre_array]
                      simp only [hu, mkDataVis, hgo]
                    constructor
                    · intro v rest h
                      rw [heq2] at h
                      exact Except.noConfusion h
                    · intro s hcon
                      rw [heq2] at hcon
                      injection hcon with h2
                      exact DeError.noConfusion h2
                | length =>
                  have heq2 : decodeDataF (F + 1) input = .error .length := by
                    rw [heq, anyH_pre_array]
                    simp only [hu, mkDataVis, hgo]
                  constructor
                  · intro v rest h
                    rw [heq2] at h
                    exact Except.noConfusion h
                  · intro s hcon
                    rw [heq2] at hcon
                    injection hcon with h2
                    exact DeError.noConfusion h2
                | trailingData =>
                  have heq2 : decodeDataF (F + 1) input = .error .trailingData := by
                    rw [heq, anyH_pre_array]
                    simp only [hu, mkDataVis, hgo]
                  constructor
                  · intro v rest h
                    rw [heq2] at h
                    exact Except.noConfusion h
                  · intro s hcon
                    rw [heq2] at hcon
                    injection hcon with h2
                    exact DeError.noConfusion h2
                | unfinishedArray =>
                  have heq2 : decodeDataF (F + 1) input = .error .unfinishedArray := by
                    rw [heq, anyH_pre_array]
                    simp only [hu, mkDataVis, hgo]
                  constructor
                  · intro v rest h
                    rw [heq2] at h
                    exact Except.noConfusion h
                  · intro s hcon
                    rw [heq2] at hcon
                    injection hcon with h2
                    exact DeError.noConfusion h2
                | custom s0 =>
                  exact absurd rfl (ihQerr (.custom s0) rem out hgo s0)
                | redis m =>
                  have heq2 : decodeDataF (F + 1) input = .error (.redis m) := by
                    rw [heq, anyH_pre_array]
                    simp only [hu, mkDataVis, hgo]
                  constructor
                  · intro v rest h
                    rw [heq2] at h
                    exact Except.noConfusion h
                  · intro s hcon
                    rw [heq2] at hcon
                    injection hcon with h2
                    exact DeError.noConfusion h2
    have hQ : SeqOkSuffix (F + 1) := by
      intro len
      induction len with
      | zero =>
        intro input hlen
        constructor
        · intro vs rem out hd
          rw [dataSeqGo_zero] at hd
          simp only [Prod.mk.injEq] at hd
          exact ⟨0, by rw [List.drop_zero, ← hd.2.2]⟩
        · intro e rem out hd
          rw [dataSeqGo_zero] at hd
          simp only [Prod.mk.injEq] at hd
          exact Except.noConfusion hd.1
      | succ n ihn =>
        intro input hlen
        cases hd : decodeDataF (F + 1) input with
        | error e =>
          have heqq : dataSeqGo (decodeDataF (F + 1)) (n + 1) input = (.error e, n, input) := by
            rw [dataSeqGo_succ]
            simp only [hd]
          constructor
          · intro vs rem out hx
            rw [heqq] at hx
            simp only [Prod.mk.injEq] at hx
            exact Except.noConfusion hx.1
          · intro e2 rem out hx s
            rw [heqq] at hx
            simp only [Prod.mk.injEq] at hx
            have he : e = e2 := Except.error.inj hx.1
            intro hes
            exact (hP input hlen).2 s (by rw [hd, he, hes])
        | ok pr =>
          obtain ⟨v, input2⟩ := pr
          have heqgo : dataSeqGo (decodeDataF (F + 1)) (n + 1) input
              = match dataSeqGo (decodeDataF (F + 1)) n input2 with
                | (.ok vs, rem, out) => (.ok (v :: vs), rem, out)
                | e => e := by
            rw [dataSeqGo_succ]
            simp only [hd]
          obtain ⟨k1, hk13, hk1⟩ := (hP input hlen).1 v input2 hd
          have hlen2 : input2.length < F + 1 := by
            rw [hk1, List.length_drop]
            omega
          obtain ⟨ihok, iherr⟩ := ihn input2 hlen2
          cases hgo2 : dataSeqGo (decodeDataF (F + 1)) n input2 with
          | mk res2 pr2 =>
            obtain ⟨rem2, out2⟩ := pr2
            cases res2 with
            | ok vs2 =>
              have heqq : dataSeqGo (decodeDataF (F + 1)) (n + 1) input
                  = (.ok (v :: vs2), rem2, out2) := by
                rw [heqgo]
                simp only [hgo2]
              constructor
              · intro vs rem out hx
                rw [heqq] at hx
                simp only [Prod.mk.injEq] at hx
                obtain ⟨k2, hk2⟩ := ihok vs2 rem2 out2 hgo2
                exact ⟨k1 + k2, by rw [← hx.2.2, hk2, hk1, List.drop_drop]⟩
              · intro e2 rem out hx s
                rw [heqq] at hx
                simp only [Prod.mk.injEq] at hx
                exact Except.noConfusion hx.1
            | error e2 =>
              have heqq : dataSeqGo (decodeDataF (F + 1)) (n + 1) input
                  = (.error e2, rem2, out2) := by
                rw [heqgo]
                simp only [hgo2]
              constructor
              · intro vs rem out hx
                rw [heqq] at hx
                simp only [Prod.mk.injEq] at hx
                exact Except.noConfusion hx.1
              · intro e3 rem out hx s
                rw [heqq] at hx
                simp only [Prod.mk.injEq] at hx
                have he : e2 = e3 := Except.error.inj hx.1
                intro hes
                exact iherr e2 rem2 out2 hgo2 s (by rw [he, hes])
    exact ⟨hP, hQ⟩

theorem decodeAt_option_pre_notnull (s : Shape) (hh : TaggedHeader) (hne : hh ≠ .null)
    (input : Bytes) :
    decodeAt (.option s) (Option.some hh) input
      = (decodeAt s (Option.some hh) input).map fun vr => (Value.some vr.1, vr.2) := by
  cases hh with
  | null => exact absurd rfl hne
  | simpleString p => rfl
  | error p => rfl
  | integer n => rfl
  | bulkString l => rfl
  | array l => rfl

theorem decodeSeqElems_suffix : ∀ (ss : List Shape),
    (∀ s0 ∈ ss, ∀ (pre : Option TaggedHeader) (input : Bytes) (v : Value) (rest : Bytes),
        decodeAt s0 pre input = .ok (v, rest) → ∃ k, rest = input.drop k) →
    ∀ (len : Nat) (inp : Bytes) (res : Except DeError (List Value)) (rem : Nat) (out : Bytes),
      decodeSeqElems ss len inp = (res, rem, out) →
    ∀ xs, res = .ok xs → ∃ k, out = inp.drop k := by
  intro ss
  induction ss with
  | nil =>
    intro _ len inp res rem out hd xs hres
    rw [show decodeSeqElems [] len inp = (.ok [], len, inp) from rfl] at hd
    simp only [Prod.mk.injEq] at hd
    exact ⟨0, by rw [List.drop_zero, ← hd.2.2]⟩
  | cons s0 ss ih =>
    intro hmem len inp res rem out hd xs hres
    cases len with
    | zero =>
      rw [show decodeSeqElems (s0 :: ss) 0 inp
          = (.error (.custom "invalid length"), 0, inp) from rfl] at hd
      simp only [Prod.mk.injEq] at hd
      rw [← hd.1] at hres
      exact Except.noConfusion hres
    | succ n =>
      have hstep : decodeSeqElems (s0 :: ss) (n + 1) inp
          = match decodeAt s0 Option.none inp with
            | .error e => (.error e, n, inp)
            | .ok (v, inp2) =>
              match decodeSeqElems ss n inp2 with
              | (.ok vs, rem, out) => (.ok (v :: vs), rem, out)
              | e => e := rfl
      cases h0 : decodeAt s0 Option.none inp with
      | error e =>
        rw [hstep] at hd
        simp only [h0, Prod.mk.injEq] at hd
        rw [← hd.1] at hres
        exact Except.noConfusion hres
      | ok pr =>
        obtain ⟨v0, inp2⟩ := pr
        obtain ⟨k0, hk0⟩ := hmem s0 (by simp) Option.none inp v0 inp2 h0
        rw [hstep] at hd
        simp only [h0] at hd
        cases hrec : decodeSeqElems ss n inp2 with
        | mk res2 pr2 =>
          obtain ⟨rem2, out2⟩ := pr2
          cases res2 with
          | ok vs2 =>
            simp only [hrec, Prod.mk.injEq] at hd
            obtain ⟨k1, hk1⟩ :=
              ih (fun s hm => hmem s (by simp [hm])) n inp2 (.ok vs2) rem2 out2 hrec vs2 rfl
            exact ⟨k0 + k1, by rw [← hd.2.2, hk1, hk0, List.drop_drop]⟩
          | error e2 =>
            simp only [hrec, Prod.mk.injEq] at hd
            rw [← hd.1] at hres
            exact Except.noConfusion hres

theorem decodeAt_suffix_bound : ∀ (N : Nat) (s : Shape), sizeOf s ≤ N →
    ∀ (pre : Option TaggedHeader) (input : Bytes) (v : Value) (rest : Bytes),
      decodeAt s pre input = .ok (v, rest) → ∃ k, rest = input.drop k := by
  intro N
  induction N with
  | zero =>
    intro s hs
    exfalso
    cases s <;> simp at hs <;> omega
  | succ N ihN =>
    intro s hs
    cases s with
    | bool =>
      intro pre input v rest h
      rw [decodeAt_bool] at h
      have hseq : ∀ l inp res rem out,
          (boolAdapt boolValVis).visitSeq l inp = (res, rem, out) →
          ∀ x, res = .ok x → ∃ k, out = inp.drop k := by
        intro l inp res rem out hv x hres
        rw [show (boolAdapt boolValVis).visitSeq l inp
            = ((.error (.custom "invalid type") : Except DeError Value), l, inp) from rfl] at hv
        simp only [Prod.mk.injEq] at hv
        rw [← hv.1] at hres
        exact Except.noConfusion hres
      cases pre with
      | some hh => exact anyH_suffix_pre _ hh input v rest hseq h
      | none => exact anyH_suffix_parse _ input v rest hseq h
    | int =>
      intro pre input v rest h
      rw [decodeAt_int] at h
      have hseq : ∀ l inp res rem out, intValVis.visitSeq l inp = (res, rem, out) →
          ∀ x, res = .ok x → ∃ k, out = inp.drop k := by
        intro l inp res rem out hv x hres
        rw [show intValVis.visitSeq l inp
            = ((.error (.custom "invalid type") : Except DeError Value), l, inp) from rfl] at hv
        simp only [Prod.mk.injEq] at hv
        rw [← hv.1] at hres
        exact Except.noConfusion hres
      cases pre with
      | some hh => exact anyH_suffix_pre _ hh input v rest hseq h
      | none => exact anyH_suffix_parse _ input v rest hseq h
    | bytes =>
      intro pre input v rest h
      rw [decodeAt_bytes] at h
      have hseq : ∀ l inp res rem out, bytesValVis.visitSeq l inp = (res, rem, out) →
          ∀ x, res = .ok x → ∃ k, out = inp.drop k := by
        intro l inp res rem out hv x hres
        rw [show bytesValVis.visitSeq l inp
            = ((.error (.custom "invalid type") : Except DeError Value), l, inp) from rfl] at hv
        simp only [Prod.mk.injEq] at hv
        rw [← hv.1] at hres
        exact Except.noConfusion hres
      cases pre with
      | some hh => exact anyH_suffix_pre _ hh input v rest hseq h
      | none => exact anyH_suffix_parse _ input v rest hseq h
    | unit =>
      intro pre input v rest h
      rw [decodeAt_unit] at h
      have hseq : ∀ l inp res rem out, unitValVis.visitSeq l inp = (res, rem, out) →
          ∀ x, res = .ok x → ∃ k, out = inp.drop k := by
        intro l inp res rem out hv x hres
        rw [show unitValVis.visitSeq l inp
            = ((.error (.custom "invalid type") : Except DeError Value), l, inp) from rfl] at hv
        simp only [Prod.mk.injEq] at hv
        rw [← hv.1] at hres
        exact Except.noConfusion hres
      cases pre with
      | some hh => exact anyH_suffix_pre _ hh input v rest hseq h
      | none => exact anyH_suffix_parse _ input v rest hseq h
    | option s2 =>
      have hs2 : sizeOf s2 ≤ N := by simp at hs; omega
      have ihs := ihN s2 hs2
      have hsome : ∀ (hh : TaggedHeader) (input : Bytes) (v : Value) (rest : Bytes),
          decodeAt (.option s2) (Option.some hh) input = .ok (v, rest) →
          ∃ k, rest = input.drop k := by
        intro hh input v rest h
        by_cases hnull : hh = .null
        · subst hnull
          rw [decodeAt_option_pre] at h
          simp only [Except.ok.injEq, Prod.mk.injEq] at h
          exact ⟨0, by rw [List.drop_zero, ← h.2]⟩
        · rw [decodeAt_option_pre_notnull s2 hh hnull] at h
          cases hd : decodeAt s2 (Option.some hh) input with
          | error e =>
            rw [hd] at h
            exact Except.noConfusion h
          | ok pr =>
            obtain ⟨v2, r2⟩ := pr
            rw [hd] at h
            simp only [Except.map, Except.ok.injEq, Prod.mk.injEq] at h
            obtain ⟨k, hk⟩ := ihs (Option.some hh) input v2 r2 hd
            exact ⟨k, by rw [← h.2, hk]⟩
      intro pre input v rest h
      cases pre with
      | some hh => exact hsome hh input v rest h
      | none =>
        rw [decodeAt_parse] at h
        cases hr : readHeader input with
        | error e =>
          simp only [hr] at h
          exact Except.noConfusion h
        | ok pr =>
          obtain ⟨hh, rest0⟩ := pr
          simp only [hr] at h
          obtain ⟨k1, _, hk1⟩ := readHeader_consumes input hh rest0 hr
          obtain ⟨k2, hk2⟩ := hsome hh rest0 v rest h
          exact ⟨k1 + k2, by rw [hk2, hk1, List.drop_drop]⟩
    | tuple ss =>
      have hmem : ∀ s0 ∈ ss, ∀ (pre : Option TaggedHeader) (input : Bytes) (v : Value)
          (rest : Bytes), decodeAt s0 pre input = .ok (v, rest) → ∃ k, rest = input.drop k := by
        intro s0 hm0
        apply ihN
        have h1 : sizeOf s0 < sizeOf ss := List.sizeOf_lt_of_mem hm0
        have h2 : sizeOf (Shape.tuple ss) = 1 + sizeOf ss := by simp
        omega
      have hseq : ∀ l inp res rem out, (tupleVis ss).visitSeq l inp = (res, rem, out) →
          ∀ x, res = .ok x → ∃ k, out = inp.drop k := by
        intro l inp res rem out hv x hres
        have hunf : (tupleVis ss).visitSeq l inp
            = match decodeSeqElems ss l inp with
              | (.ok vs, rem, out) => ((.ok (.tuple vs) : Except DeError Value), rem, out)
              | (.error e, rem, out) => (.error e, rem, out) := rfl
        cases hd : decodeSeqElems ss l inp with
        | mk res0 pr0 =>
          obtain ⟨rem0, out0⟩ := pr0
          cases res0 with
          | ok vs =>
            rw [hunf] at hv
            simp only [hd, Prod.mk.injEq] at hv
            obtain ⟨k, hk⟩ := decodeSeqElems_suffix ss hmem l inp (.ok vs) rem0 out0 hd vs rfl
            exact ⟨k, by rw [← hv.2.2, hk]⟩
          | error e =>
            rw [hunf] at hv
            simp only [hd, Prod.mk.injEq] at hv
            rw [← hv.1] at hres
            exact Except.noConfusion hres
      intro pre input v rest h
      rw [decodeAt_tuple] at h
      cases pre with
      | some hh => exact anyH_suffix_pre _ hh input v rest hseq h
      | none => exact anyH_suffix_parse _ input v rest hseq h
    | result s2 =>
      have hs2 : sizeOf s2 ≤ N := by simp at hs; omega
      have ihs := ihN s2 hs2
      have henum : ∀ h2 inp b r, (resultVis s2).visitEnumOk h2 inp = .ok (b, r) →
          ∃ k, r = inp.drop k := by
        intro h2 inp b r hv
        rw [show (resultVis s2).visitEnumOk h2 inp
            = (decodeAt s2 (Option.some h2) inp).map (fun vr => (Value.ok vr.1, vr.2)) from rfl] at hv
        cases hd : decodeAt s2 (Option.some h2) inp with
        | error e =>
          rw [hd] at hv
          exact Except.noConfusion hv
        | ok pr =>
          obtain ⟨v2, r2⟩ := pr
          rw [hd] at hv
          simp only [Except.map, Except.ok.injEq, Prod.mk.injEq] at hv
          obtain ⟨k, hk⟩ := ihs (Option.some h2) inp v2 r2 hd
          exact ⟨k, by rw [← hv.2, hk]⟩
      intro pre input v rest h
      rw [decodeAt_result] at h
      cases pre with
      | some hh => exact enumH_suffix_pre _ hh input v rest henum h
      | none => exact enumH_suffix_parse _ input v rest henum h

/-- C9: decoding is total over arbitrary input: the untyped decode
always returns a value (with the cursor a bounds-checked drop-suffix of
the input, at least three bytes in) or an error, and the fuelled
embedding never exhausts its fuel (no `custom` error escapes); likewise
every successful type-driven decode leaves the cursor at a drop-suffix
of its input, so all slicing stays in bounds. -/
theorem claim_C9 :
    (∀ input : Bytes,
      (∃ v rest, decodeData input = .ok (v, rest) ∧ ∃ k, 3 ≤ k ∧ rest = input.drop k)
      ∨ (∃ e, decodeData input = .error e ∧ ∀ s, e ≠ .custom s))
    ∧ ∀ (s : Shape) (pre : Option TaggedHeader) (input : Bytes) (v : Value) (rest : Bytes),
        decodeAt s pre input = .ok (v, rest) → ∃ k, rest = input.drop k := by
  constructor
  · intro input
    have hP := (decodeDataF_sound (input.length + 1)).1 input (Nat.lt_succ_self _)
    cases hd : decodeData input with
    | ok pr =>
      obtain ⟨v, rest⟩ := pr
      exact Or.inl ⟨v, rest, rfl, hP.1 v rest hd⟩
    | error e =>
      refine Or.inr ⟨e, rfl, fun s hes => ?_⟩
      apply hP.2 s
      rw [← hes]
      exact hd
  · intro s pre input v rest h
    exact decodeAt_suffix_bound (sizeOf s) s (Nat.le_refl _) pre input v rest h

theorem claim_C9_witness :
    ((∃ v rest, decodeData [58, 53, 13, 10] = .ok (v, rest)
        ∧ ∃ k, 3 ≤ k ∧ rest = [58, 53, 13, 10].drop k)
      ∨ (∃ e, decodeData [58, 53, 13, 10] = .error e ∧ ∀ s, e ≠ .custom s))
    ∧ ∃ k, ([] : Bytes) = [58, 53, 13, 10].drop k :=
  ⟨claim_C9.1 [58, 53, 13, 10],
   claim_C9.2 .int Option.none [58, 53, 13, 10] (.int 5) [] (by rfl)⟩

theorem intToDecimal_natCast (n : Nat) : intToDecimal (n : Int) = natDigits n := by
  rw [intToDecimal, if_neg (by omega)]
  simp

theorem append_crlf_tail (X tail : Bytes) :
    (X ++ [13, 10]) ++ tail = X ++ 13 :: 10 :: tail := by
  rw [List.append_assoc]
  rfl

theorem memchr2_none_clean : ∀ (s : Bytes), memchr2 13 10 s = Option.none →
    ∀ d ∈ s, ¬(d = 13 ∨ d = 10) := by
  intro s
  induction s with
  | nil => intro _ d hd; exact absurd hd (List.not_mem_nil d)
  | cons c rest ih =>
    intro hm d hd
    rw [show memchr2 13 10 (c :: rest)
        = (if c = 13 ∨ c = 10 then some 0 else (memchr2 13 10 rest).map (· + 1)) from rfl] at hm
    by_cases hc : c = 13 ∨ c = 10
    · rw [if_pos hc] at hm
      exact Option.noConfusion hm
    · rw [if_neg hc] at hm
      have hrest : memchr2 13 10 rest = Option.none := by
        cases hmr : memchr2 13 10 rest with
        | none => rfl
        | some i => rw [hmr] at hm; exact Option.noConfusion hm
      rcases List.mem_cons.mp hd with h1 | h2
      · rw [h1]; exact hc
      · exact ih hrest d h2

theorem safeBytes_clean (s : Bytes) (h : safeBytes s = true) :
    ∀ d ∈ s, ¬(d = 13 ∨ d = 10) := by
  apply memchr2_none_clean
  revert h
  rw [safeBytes]
  cases memchr2 13 10 s with
  | none => intro _; rfl
  | some i => intro h; exact Bool.noConfusion h

theorem coreList : ∀ (ws : List Value),
    (∀ w ∈ ws, ∀ (m : UnitMode) (σ : Shape), RT m σ w = true →
      ∃ out, serialize m w = .ok out ∧ ∀ tail, ∃ h rest,
        readHeader (out ++ tail) = .ok (h, rest)
        ∧ (h = .null ↔ nullHeadB m w = true)
        ∧ (h = .simpleString okBytes ↔ okHeadB m w = true)
        ∧ ((∃ p, h = .error p) ↔ errHeadB w = true)
        ∧ decodeAt σ (Option.some h) rest = .ok (w, tail)) →
    ∀ (ss : List Shape), RTlist ss ws = true →
    ∃ body, serializeValues ws = .ok body ∧
      ∀ tail, decodeSeqElems ss ws.length (body ++ tail) = (.ok ws, 0, tail) := by
  intro ws
  induction ws with
  | nil =>
    intro _ ss hr
    cases ss with
    | nil => exact ⟨[], rfl, fun tail => rfl⟩
    | cons s ss => exact Bool.noConfusion hr
  | cons w ws ih =>
    intro hmem ss hr
    cases ss with
    | nil => exact Bool.noConfusion hr
    | cons s ss =>
      have hr2 : RT .nullUnit s w = true ∧ RTlist ss ws = true := by
        rw [show RTlist (s :: ss) (w :: ws) = (RT .nullUnit s w && RTlist ss ws) from rfl,
            Bool.and_eq_true] at hr
        exact hr
      obtain ⟨out, hout, hall⟩ := hmem w (by simp) .nullUnit s hr2.1
      obtain ⟨body, hbody, hseq⟩ := ih (fun w2 hw2 => hmem w2 (by simp [hw2])) ss hr2.2
      refine ⟨out ++ body, ?_, ?_⟩
      · rw [show serializeValues (w :: ws)
            = (match serialize .nullUnit w with
               | .error e => .error e
               | .ok b =>
                 match serializeValues ws with
                 | .error e => .error e
                 | .ok r => .ok (b ++ r)) from rfl]
        simp only [hout, hbody]
      · intro tail
        obtain ⟨h, rest, hread, _, _, _, hdec⟩ := hall (body ++ tail)
        have hd0 : decodeAt s Option.none ((out ++ body) ++ tail) = .ok (w, body ++ tail) := by
          rw [List.append_assoc, decodeAt_parse, hread]
          exact hdec
        rw [show (w :: ws).length = ws.length + 1 from rfl]
        rw [show decodeSeqElems (s :: ss) (ws.length + 1) ((out ++ body) ++ tail)
            = (match decodeAt s Option.none ((out ++ body) ++ tail) with
               | .error e => (.error e, ws.length, (out ++ body) ++ tail)
               | .ok (v, inp2) =>
                 match decodeSeqElems ss ws.length inp2 with
                 | (.ok vs2, rem, out2) => (.ok (v :: vs2), rem, out2)
                 | e => e) from rfl]
        simp only [hd0, hseq tail]

theorem coreRT : ∀ (N : Nat) (v : Value), sizeOf v ≤ N →
    ∀ (m : UnitMode) (σ : Shape), RT m σ v = true →
    ∃ out, serialize m v = .ok out ∧ ∀ tail, ∃ h rest,
      readHeader (out ++ tail) = .ok (h, rest)
      ∧ (h = .null ↔ nullHeadB m v = true)
      ∧ (h = .simpleString okBytes ↔ okHeadB m v = true)
      ∧ ((∃ p, h = .error p) ↔ errHeadB v = true)
      ∧ decodeAt σ (Option.some h) rest = .ok (v, tail) := by
  intro N
  induction N with
  | zero =>
    intro v hv m σ hRT
    exfalso
    cases v <;> simp at hv <;> omega
  | succ N ihN =>
    intro v hv m σ hRT
    cases v with
    | bool b =>
      cases σ
      case bool =>
        cases b with
        | false =>
          refine ⟨[58, 48, 13, 10], rfl, fun tail => ⟨.integer 0, tail, ?_, ?_, ?_, ?_, ?_⟩⟩
          · exact readHeader_int 0 tail (by decide) (by decide)
          · exact ⟨fun hc => TaggedHeader.noConfusion hc, fun hb => Bool.noConfusion hb⟩
          · exact ⟨fun hc => TaggedHeader.noConfusion hc, fun hb => Bool.noConfusion hb⟩
          · exact ⟨fun hc => TaggedHeader.noConfusion hc.choose_spec, fun hb => Bool.noConfusion hb⟩
          · rfl
        | true =>
          refine ⟨[58, 49, 13, 10], rfl, fun tail => ⟨.integer 1, tail, ?_, ?_, ?_, ?_, ?_⟩⟩
          · exact readHeader_int 1 tail (by decide) (by decide)
          · exact ⟨fun hc => TaggedHeader.noConfusion hc, fun hb => Bool.noConfusion hb⟩
          · exact ⟨fun hc => TaggedHeader.noConfusion hc, fun hb => Bool.noConfusion hb⟩
          · exact ⟨fun hc => TaggedHeader.noConfusion hc.choose_spec, fun hb => Bool.noConfusion hb⟩
          · rfl
      all_goals exact Bool.noConfusion hRT
    | int n =>
      cases σ
      case int =>
        have hrange : i64Min ≤ n ∧ n ≤ i64Max := of_decide_eq_true hRT
        have hout : serialize m (.int n) = .ok ((58 :: intToDecimal n) ++ [13, 10]) := by
          rw [serialize_int, serializeNumber, serializeHeader, if_pos hrange]
        refine ⟨_, hout, fun tail => ⟨.integer n, tail, ?_, ?_, ?_, ?_, ?_⟩⟩
        · rw [append_crlf_tail]
          exact readHeader_int n tail hrange.1 hrange.2
        · exact ⟨fun hc => TaggedHeader.noConfusion hc, fun hb => Bool.noConfusion hb⟩
        · exact ⟨fun hc => TaggedHeader.noConfusion hc, fun hb => Bool.noConfusion hb⟩
        · exact ⟨fun hc => TaggedHeader.noConfusion hc.choose_spec, fun hb => Bool.noConfusion hb⟩
        · rfl
      all_goals exact Bool.noConfusion hRT
    | bytes s =>
      cases σ
      case bytes =>
        have hlen : s.length ≤ 536870912 := of_decide_eq_true hRT
        have hle : (s.length : Int) ≤ i64Max := by simp only [i64Max]; omega
        have hout : serialize m (.bytes s)
            = .ok ((36 :: intToDecimal (s.length : Int)) ++ [13, 10] ++ s ++ [13, 10]) := by
          rw [serialize_bytesV, serializeBulkString, if_pos hle]
        refine ⟨_, hout, fun tail =>
          ⟨.bulkString (s.length : Int), s ++ 13 :: 10 :: tail, ?_, ?_, ?_, ?_, ?_⟩⟩
        · have hform : ((36 :: intToDecimal (s.length : Int)) ++ [13, 10] ++ s ++ [13, 10]) ++ tail
              = 36 :: natDigits s.length ++ 13 :: 10 :: (s ++ 13 :: 10 :: tail) := by
            rw [intToDecimal_natCast]
            simp [List.append_assoc]
          rw [hform]
          exact readHeader_bulkNat s.length _ hle
        · exact ⟨fun hc => TaggedHeader.noConfusion hc, fun hb => Bool.noConfusion hb⟩
        · exact ⟨fun hc => TaggedHeader.noConfusion hc, fun hb => Bool.noConfusion hb⟩
        · exact ⟨fun hc => TaggedHeader.noConfusion hc.choose_spec, fun hb => Bool.noConfusion hb⟩
        · rw [decodeAt_bytes, anyH_pre_bulk, if_neg (by simp only [maxBulkLength]; omega),
            toUsize_natCast]
          simp only [readExact_exact]
          rfl
      all_goals exact Bool.noConfusion hRT
    | unit =>
      cases σ
      case unit =>
        have hm : m = .nullUnit := of_decide_eq_true hRT
        subst hm
        refine ⟨nullFast, rfl, fun tail => ⟨.null, tail, readHeader_nullFast tail, ?_, ?_, ?_, ?_⟩⟩
        · exact ⟨fun _ => by decide, fun _ => rfl⟩
        · exact ⟨fun hc => TaggedHeader.noConfusion hc, fun hb => Bool.noConfusion hb⟩
        · exact ⟨fun hc => TaggedHeader.noConfusion hc.choose_spec, fun hb => Bool.noConfusion hb⟩
        · rfl
      all_goals exact Bool.noConfusion hRT
    | none =>
      cases σ
      case option τ =>
        refine ⟨nullFast, rfl, fun tail => ⟨.null, tail, readHeader_nullFast tail, ?_, ?_, ?_, ?_⟩⟩
        · exact ⟨fun _ => rfl, fun _ => rfl⟩
        · exact ⟨fun hc => TaggedHeader.noConfusion hc, fun hb => Bool.noConfusion hb⟩
        · exact ⟨fun hc => TaggedHeader.noConfusion hc.choose_spec, fun hb => Bool.noConfusion hb⟩
        · rfl
      all_goals exact Bool.noConfusion hRT
    | some w =>
      cases σ
      case option τ =>
        rw [show RT m (.option τ) (.some w) = (RT m τ w && !nullHeadB m w) from rfl,
          Bool.and_eq_true] at hRT
        have hnn : nullHeadB m w = false := by
          have := hRT.2
          cases hx : nullHeadB m w
          · rfl
          · rw [hx] at this; exact Bool.noConfusion this
        have hszw : sizeOf w ≤ N := by simp at hv; omega
        obtain ⟨out, hout, hall⟩ := ihN w hszw m τ hRT.1
        refine ⟨out, by rw [serialize_someV, hout], fun tail => ?_⟩
        obtain ⟨h, rest, hread, hniff, hoiff, heiff, hdec⟩ := hall tail
        refine ⟨h, rest, hread, hniff, hoiff, heiff, ?_⟩
        have hne : h ≠ .null := fun hc => by
          have := hniff.mp hc
          rw [hnn] at this
          exact Bool.noConfusion this
        rw [decodeAt_option_pre_notnull τ h hne, hdec]
        rfl
      all_goals exact Bool.noConfusion hRT
    | tuple vs =>
      cases σ
      case tuple ss =>
        rw [show RT m (.tuple ss) (.tuple vs)
            = (RTlist ss vs && decide ((vs.length : Int) ≤ i64Max)) from rfl,
          Bool.and_eq_true] at hRT
        have hlenI : (vs.length : Int) ≤ i64Max := of_decide_eq_true hRT.2
        have hszvs : sizeOf vs ≤ N := by simp at hv; omega
        have hmem : ∀ w ∈ vs, ∀ (m2 : UnitMode) (σ2 : Shape), RT m2 σ2 w = true →
            ∃ out, serialize m2 w = .ok out ∧ ∀ tail, ∃ h rest,
              readHeader (out ++ tail) = .ok (h, rest)
              ∧ (h = .null ↔ nullHeadB m2 w = true)
              ∧ (h = .simpleString okBytes ↔ okHeadB m2 w = true)
              ∧ ((∃ p, h = .error p) ↔ errHeadB w = true)
              ∧ decodeAt σ2 (Option.some h) rest = .ok (w, tail) := by
          intro w hw m2 σ2 hr2
          have hsz : sizeOf w ≤ N := by
            have := List.sizeOf_lt_of_mem hw
            omega
          exact ihN w hsz m2 σ2 hr2
        obtain ⟨body, hbody, hseq⟩ := coreList vs hmem ss hRT.1
        have hhd : serializeArrayHeader vs.length
            = .ok ((42 :: intToDecimal (vs.length : Int)) ++ [13, 10]) := by
          rw [serializeArrayHeader, serializeHeader,
            if_pos ⟨by simp only [i64Min]; omega, hlenI⟩]
        have hout : serialize m (.tuple vs)
            = .ok (((42 :: intToDecimal (vs.length : Int)) ++ [13, 10]) ++ body) := by
          rw [serialize_tupleV]
          simp only [hhd, hbody]
        refine ⟨_, hout, fun tail =>
          ⟨.array (vs.length : Int), body ++ tail, ?_, ?_, ?_, ?_, ?_⟩⟩
        · have hform : ((((42 :: intToDecimal (vs.length : Int)) ++ [13, 10]) ++ body) ++ tail)
              = 42 :: natDigits vs.length ++ 13 :: 10 :: (body ++ tail) := by
            rw [intToDecimal_natCast]
            simp [List.append_assoc]
          rw [hform]
          exact readHeader_arrayNat vs.length (body ++ tail) hlenI
        · exact ⟨fun hc => TaggedHeader.noConfusion hc, fun hb => Bool.noConfusion hb⟩
        · exact ⟨fun hc => TaggedHeader.noConfusion hc, fun hb => Bool.noConfusion hb⟩
        · exact ⟨fun hc => TaggedHeader.noConfusion hc.choose_spec, fun hb => Bool.noConfusion hb⟩
        · rw [decodeAt_tuple, anyH_pre_array_nat]
          have hvs : (tupleVis ss).visitSeq vs.length (body ++ tail)
              = (.ok (.tuple vs), 0, tail) := by
            rw [show (tupleVis ss).visitSeq vs.length (body ++ tail)
                = (match decodeSeqElems ss vs.length (body ++ tail) with
                   | (.ok vs2, rem, out) => ((.ok (.tuple vs2) : Except DeError Value), rem, out)
                   | (.error e, rem, out) => (.error e, rem, out)) from rfl]
            simp only [hseq tail]
          simp only [hvs]
          rfl
      all_goals exact Bool.noConfusion hRT
    | ok w =>
      cases σ
      case result τ =>
        rw [show RT m (.result τ) (.ok w)
            = cond (okHeadB .resultOkUnit w) (w.isUnit && Shape.isUnitS τ)
                (RT .resultOkUnit τ w && !errHeadB w) from rfl] at hRT
        have hszw : sizeOf w ≤ N := by simp at hv; omega
        cases hok : okHeadB .resultOkUnit w with
        | true =>
          rw [hok, show cond true (w.isUnit && Shape.isUnitS τ)
              (RT .resultOkUnit τ w && !errHeadB w) = (w.isUnit && Shape.isUnitS τ) from rfl,
            Bool.and_eq_true] at hRT
          have hwu : w = .unit := by
            cases w <;> first | rfl | exact Bool.noConfusion hRT.1
          have hτu : τ = .unit := by
            cases τ <;> first | rfl | exact Bool.noConfusion hRT.2
          subst hwu hτu
          refine ⟨okFast, rfl, fun tail =>
            ⟨.simpleString okBytes, tail, readHeader_okFast tail, ?_, ?_, ?_, ?_⟩⟩
          · exact ⟨fun hc => TaggedHeader.noConfusion hc, fun hb => Bool.noConfusion hb⟩
          · exact ⟨fun _ => rfl, fun _ => rfl⟩
          · exact ⟨fun hc => TaggedHeader.noConfusion hc.choose_spec, fun hb => Bool.noConfusion hb⟩
          · rw [decodeAt_result, enumH_pre_simple, if_pos rfl]
            rfl
        | false =>
          rw [hok, show cond false (w.isUnit && Shape.isUnitS τ)
              (RT .resultOkUnit τ w && !errHeadB w)
              = (RT .resultOkUnit τ w && !errHeadB w) from rfl,
            Bool.and_eq_true] at hRT
          have herr : errHeadB w = false := by
            have := hRT.2
            cases hx : errHeadB w
            · rfl
            · rw [hx] at this; exact Bool.noConfusion this
          obtain ⟨out, hout, hall⟩ := ihN w hszw .resultOkUnit τ hRT.1
          refine ⟨out, by rw [serialize_okV, hout], fun tail => ?_⟩
          obtain ⟨h, rest, hread, hniff, hoiff, heiff, hdec⟩ := hall tail
          refine ⟨h, rest, hread, hniff, hoiff, heiff, ?_⟩
          have hok2 : h ≠ .simpleString okBytes := fun hc => by
            have := hoiff.mp hc
            rw [hok] at this
            exact Bool.noConfusion this
          have herr2 : ∀ p, h ≠ .error p := fun p hc => by
            have := heiff.mp ⟨p, hc⟩
            rw [herr] at this
            exact Bool.noConfusion this
          rw [decodeAt_result]
          cases h with
          | simpleString p =>
            have hp : p ≠ okBytes := fun he => hok2 (by rw [he])
            rw [enumH_pre_simple, if_neg hp]
            show (decodeAt τ (Option.some (TaggedHeader.simpleString p)) rest).map
                (fun vr => (Value.ok vr.1, vr.2)) = _
            rw [hdec]
            rfl
          | error p => exact absurd rfl (herr2 p)
          | integer n =>
            rw [enumH_pre_integer]
            show (decodeAt τ (Option.some (TaggedHeader.integer n)) rest).map
                (fun vr => (Value.ok vr.1, vr.2)) = _
            rw [hdec]
            rfl
          | bulkString l =>
            rw [enumH_pre_bulk]
            show (decodeAt τ (Option.some (TaggedHeader.bulkString l)) rest).map
                (fun vr => (Value.ok vr.1, vr.2)) = _
            rw [hdec]
            rfl
          | array l =>
            rw [enumH_pre_arr]
            show (decodeAt τ (Option.some (TaggedHeader.array l)) rest).map
                (fun vr => (Value.ok vr.1, vr.2)) = _
            rw [hdec]
            rfl
          | null =>
            rw [enumH_pre_null]
            show (decodeAt τ (Option.some TaggedHeader.null) rest).map
                (fun vr => (Value.ok vr.1, vr.2)) = _
            rw [hdec]
            rfl
      all_goals exact Bool.noConfusion hRT
    | err msg =>
      cases σ
      case result τ =>
        have hsafe : safeBytes msg = true := hRT
        have hclean := safeBytes_clean msg hsafe
        have hout : serialize m (.err msg) = .ok ((45 :: msg) ++ [13, 10]) := by
          rw [serialize_errV, serializeError, if_pos hsafe]
        refine ⟨_, hout, fun tail => ⟨.error msg, tail, ?_, ?_, ?_, ?_, ?_⟩⟩
        · rw [append_crlf_tail]
          exact readHeader_err msg tail hclean
        · exact ⟨fun hc => TaggedHeader.noConfusion hc, fun hb => Bool.noConfusion hb⟩
        · exact ⟨fun hc => TaggedHeader.noConfusion hc, fun hb => Bool.noConfusion hb⟩
        · exact ⟨fun _ => rfl, fun _ => ⟨msg, rfl⟩⟩
        · rw [decodeAt_result, enumH_pre_error]
          rfl
      all_goals exact Bool.noConfusion hRT

/-- C1 counterexample: `Some(None) : Option<Option<Bytes>>` is a
supported typed value, serializes successfully (to the null sentinel,
because `Some` is transparent), but decodes back as `None`, not
`Some(None)` — a collapse beyond the boolean/integer and unit/OK
collapses the spec names. -/
theorem claim_C1_counterexample :
    serialize .nullUnit (.some .none) = .ok nullFast
    ∧ fromBytes (.option (.option .bytes)) nullFast = .ok .none
    ∧ Value.none ≠ Value.some Value.none :=
  ⟨rfl, rfl, fun hc => Value.noConfusion hc⟩

/-- C1 (amended): for every supported typed value that moreover avoids
the null-sentinel and plain-OK collapses (the `RT` predicate: in-range
integers and lengths, no `Some` whose payload serializes to the null
sentinel, no `Ok` whose payload serializes to a wire Error or collapses
to plain `+OK` without being unit, `Err` payloads free of CR/LF),
serializing and then deserializing the whole buffer at the value's
shape succeeds and returns the value unchanged. -/
theorem claim_C1 (v : Value) (σ : Shape) (h : RT .nullUnit σ v = true) :
    ∃ out, serialize .nullUnit v = .ok out ∧ fromBytes σ out = .ok v := by
  obtain ⟨out, hout, hall⟩ := coreRT (sizeOf v) v (Nat.le_refl _) .nullUnit σ h
  obtain ⟨h2, rest, hread, _, _, _, hdec⟩ := hall []
  rw [List.append_nil] at hread
  refine ⟨out, hout, ?_⟩
  have hd0 : decodeAt σ Option.none out = .ok (v, []) := by
    rw [decodeAt_parse, hread]
    exact hdec
  rw [show fromBytes σ out
      = (match decodeAt σ Option.none out with
         | .error e => .error e
         | .ok (v2, rest2) => if rest2 = [] then .ok v2 else .error .trailingData) from rfl]
  simp only [hd0]
  rfl

theorem claim_C1_witness :
    ∃ out,
      serialize .nullUnit (.tuple [.int 5, .some (.bytes [97]), .ok .unit]) = .ok out
      ∧ fromBytes (.tuple [.int, .option .bytes, .result .unit]) out
        = .ok (.tuple [.int 5, .some (.bytes [97]), .ok .unit]) :=
  claim_C1 (.tuple [.int 5, .some (.bytes [97]), .ok .unit])
    (.tuple [.int, .option .bytes, .result .unit]) (by rfl)
